import Mathlib

/-!
Verification of `memebot_demo/src/helpers/weather.js`.

The JavaScript module is shallowly embedded below: every pure helper of the
source file becomes a computable Lean function over `List Char` / `String`,
JS numbers that carry weather metrics become `ℚ`, unix timestamps become
`Int`, and the effectful `getWeather` becomes a function over an explicit
environment of network oracles that also returns the list of network
requests it attempted.  `null`/`undefined` fields are modelled with
`Option`; the `state` field of a geocoding match is modelled as a `String`
where `""` plays the role of a missing/falsy state, exactly as the source
treats it (`g.state ? … : …` and `g.state ?? ""` agree on that encoding).
-/

namespace Weather

/-- The character class `\s` of a JavaScript regular expression (also the set
trimmed by `String.prototype.trim`): space, tab, line terminators, and the
Unicode space separators. -/
def jsSpace (c : Char) : Bool :=
  c = ' ' || c = '\t' || c = '\n' || c = '\r' ||
  c.val = 11 || c.val = 12 || c.val = 0xa0 || c.val = 0x1680 ||
  (0x2000 ≤ c.val && c.val ≤ 0x200a) ||
  c.val = 0x2028 || c.val = 0x2029 || c.val = 0x202f || c.val = 0x205f ||
  c.val = 0x3000 || c.val = 0xfeff

/-- Drop the leading run of `\s` characters (the left half of `trim()`). -/
def dropLead (l : List Char) : List Char := l.dropWhile jsSpace

/-- Drop the trailing run of `\s` characters (the right half of `trim()`). -/
def dropTrail : List Char → List Char
  | [] => []
  | c :: cs =>
    match dropTrail cs with
    | [] => if jsSpace c then [] else [c]
    | r => c :: r

/-- `String.prototype.trim()` on a list of characters. -/
def trimJS (l : List Char) : List Char := dropTrail (dropLead l)

/-- `replace(/\s+/g, " ")`: every maximal run of `\s` characters is replaced
by a single ASCII space. -/
def collapseWs : List Char → List Char
  | [] => []
  | c :: cs =>
    let r := collapseWs cs
    if jsSpace c then
      match r.head? with
      | some h => if jsSpace h then r else ' ' :: r
      | none => [' ']
    else c :: r

/-- `replace(/\s*,\s*/g, ", ")`.  Each match of the pattern is anchored at a
comma: it eats the run of `\s` immediately before the comma and the run
immediately after it, and is rewritten to `", "`.  The scan below mirrors
that: at a comma, emit `", "` and swallow the following spaces; at a space
whose run ends at a comma, swallow the run (the comma will re-emit it); any
other character is copied. -/
def replCommas : List Char → List Char
  | [] => []
  | c :: cs =>
    let r := replCommas cs
    if c = ',' then ',' :: ' ' :: r.dropWhile jsSpace
    else if jsSpace c then
      if (cs.dropWhile jsSpace).head? = some ',' then r else c :: r
    else c :: r

/-- Body of `normalizePlace` on character lists:
`input.trim().replace(/\s*,\s*/g, ", ").replace(/\s+/g, " ")`. -/
def normList (l : List Char) : List Char := collapseWs (replCommas (trimJS l))

/-- `normalizePlace(input)` from the source: trim, collapse whitespace around
commas into `", "`, collapse remaining whitespace runs to single spaces. -/
def normalizePlace (s : String) : String := String.mk (normList s.data)

/-- `s.split(",")` with JavaScript semantics (`"".split(",") = [""]`,
`"x,".split(",") = ["x", ""]`). -/
def splitComma : List Char → List (List Char)
  | [] => [[]]
  | c :: cs =>
    if c = ',' then [] :: splitComma cs
    else
      match splitComma cs with
      | [] => [[c]]
      | s :: rest => (c :: s) :: rest

/-- ASCII `toLowerCase()` (the inputs the module compares are ASCII). -/
def lowerStr (s : String) : String := String.mk (s.data.map Char.toLower)

/-- ASCII `toUpperCase()`. -/
def upperStr (s : String) : String := String.mk (s.data.map Char.toUpper)

/-- The comma-parts of a query as the source computes them:
`q.split(",").map(p => p.trim()).filter(Boolean)` — split on commas, trim
each part, drop the empty ones. -/
def commaParts (q : String) : List String :=
  ((splitComma q.data).map (fun p => String.mk (trimJS p))).filter (fun s => s ≠ "")

/-- The test `/^[A-Za-z]{2}$/.test(s)`. -/
def isTwoAlpha (s : String) : Bool :=
  s.data.length = 2 && s.data.all Char.isAlpha

/-- `maybeAppendUS(q)` from the source: if the query splits into exactly two
trimmed non-empty comma-parts and the second is a two-letter alphabetic
token, rewrite to `"<city>, <STATE>, US"`; otherwise return `q` unchanged. -/
def maybeAppendUS (q : String) : String :=
  let parts := commaParts q
  if parts.length = 2 && isTwoAlpha (parts.getD 1 "") then
    (parts.getD 0 "") ++ ", " ++ upperStr (parts.getD 1 "") ++ ", US"
  else q

/-- `text.includes(pat)` on character lists: `pat` occurs contiguously in
`text` (the empty pattern always occurs). -/
def containsSub (pat : List Char) : List Char → Bool
  | [] => pat.isEmpty
  | c :: cs => pat.isPrefixOf (c :: cs) || containsSub pat cs

/-- A geocoding result `{ name, state?, country, lat, lon }`.  Coordinates are
compared only for exact equality by the module, so they are modelled as `Int`;
a missing `state` is modelled as `""` (the source only ever tests `state` for
truthiness or coalesces it to `""`). -/
structure GeoMatch where
  name : String
  state : String
  country : String
  lat : Int
  lon : Int
deriving DecidableEq, Repr

/-- `dedupeGeo(results)`: keep `g` at index `i` iff `i` is the first index
whose entry has the same `(lat, lon)` pair
(`results.filter((g, i, arr) => i === arr.findIndex(x => x.lat === g.lat && x.lon === g.lon))`). -/
def dedupeGeo (results : List GeoMatch) : List GeoMatch :=
  (results.enum.filter
    (fun p => results.findIdx (fun x => x.lat = p.2.lat && x.lon = p.2.lon) = p.1)).map
    Prod.snd

/-- `pickBestGeoMatch(query, geoResults)` from the source.  `none` models the
JavaScript `undefined` that `geoResults[0]` yields on an empty list (the
caller only invokes it with at least two matches). -/
def pickBestGeoMatch (query : String) (geoResults : List GeoMatch) : Option GeoMatch :=
  let q := lowerStr query
  let parts := commaParts query
  let maybeState := if parts.length ≥ 2 then lowerStr (parts.getD 1 "") else ""
  let maybeCountry := if parts.length ≥ 3 then lowerStr (parts.getD 2 "") else ""
  let stateHit :=
    if maybeState ≠ "" then
      geoResults.find? (fun g => lowerStr g.state = maybeState)
    else none
  let countryHit :=
    if maybeCountry ≠ "" && maybeCountry.length ≤ 3 then
      geoResults.find? (fun g => lowerStr g.country = maybeCountry)
    else none
  let stateNameHit :=
    geoResults.find? (fun g =>
      lowerStr g.state ≠ "" && containsSub (lowerStr g.state).data q.data)
  stateHit <|> countryHit <|> (stateNameHit <|> geoResults.head?)

/-! ### Calendar arithmetic

`dayKeyFromUtcWithOffset` builds `new Date((dt + tz) * 1000)` and reads its
UTC calendar date; the proleptic-Gregorian conversion JavaScript performs is
the standard days-from-epoch/civil-from-days arithmetic, written with floor
division exactly as `Date` computes it for negative instants too. -/

/-- Civil `(year, month, day)` of the UTC day that lies `z` days after
1970-01-01 (proleptic Gregorian, Howard Hinnant's `civil_from_days`). -/
def civilFromDays (z0 : Int) : Int × Int × Int :=
  let z := z0 + 719468
  let era := Int.fdiv z 146097
  let doe := z - era * 146097
  let yoe := Int.fdiv (doe - Int.fdiv doe 1460 + Int.fdiv doe 36524 - Int.fdiv doe 146096) 365
  let y := yoe + era * 400
  let doy := doe - (365 * yoe + Int.fdiv yoe 4 - Int.fdiv yoe 100)
  let mp := Int.fdiv (5 * doy + 2) 153
  let d := doy - Int.fdiv (153 * mp + 2) 5 + 1
  let m := mp + (if mp < 10 then 3 else (-9 : Int))
  (if m ≤ 2 then y + 1 else y, m, d)

/-- Days since 1970-01-01 of a civil date (Hinnant's `days_from_civil`). -/
def daysFromCivil (y m d : Int) : Int :=
  let y' := if m ≤ 2 then y - 1 else y
  let era := Int.fdiv y' 400
  let yoe := y' - era * 400
  let mp := Int.emod (m + 9) 12
  let doy := Int.fdiv (153 * mp + 2) 5 + d - 1
  let doe := yoe * 365 + Int.fdiv yoe 4 - Int.fdiv yoe 100 + doy
  era * 146097 + doe - 719468

/-- `String(n).padStart(2, "0")` for the (always in-range) month/day parts. -/
def pad2 (n : Int) : String := if n < 10 then "0" ++ toString n else toString n

/-- `dayKeyFromUtcWithOffset(dtSeconds, tzOffsetSeconds)`: the `YYYY-MM-DD`
UTC calendar date of the instant shifted by the offset.  `getUTCFullYear`
etc. of `new Date(ms)` are exactly `civilFromDays (floor (ms / 86400000))`. -/
def dayKeyFromUtcWithOffset (dtSeconds tzOffsetSeconds : Int) : String :=
  let (y, m, day) := civilFromDays (Int.fdiv (dtSeconds + tzOffsetSeconds) 86400)
  toString y ++ "-" ++ pad2 m ++ "-" ++ pad2 day

/-- Digits-only `Number(...)` parsing used on the pieces of a well-formed
`YYYY-MM-DD` key. -/
def parseNat (l : List Char) : Int :=
  l.foldl (fun acc c => acc * 10 + (Int.ofNat c.toNat - 48)) 0

/-- `s.split("-")` restricted to the `'-'` separator, JS semantics. -/
def splitDash : List Char → List (List Char)
  | [] => [[]]
  | c :: cs =>
    if c = '-' then [] :: splitDash cs
    else
      match splitDash cs with
      | [] => [[c]]
      | s :: rest => (c :: s) :: rest

/-- `labelFromKey(key)`: parse the `YYYY-MM-DD` key, rebuild the date with
`Date.UTC` (which maps two-digit years into 19xx) and format it as the
`en-US` short string `"Wed, Jan 1"`. -/
def labelFromKey (key : String) : String :=
  let ps := (splitDash key.data).map parseNat
  let y0 := ps.getD 0 0
  let m := ps.getD 1 0
  let d := ps.getD 2 0
  let y := if 0 ≤ y0 && y0 ≤ 99 then y0 + 1900 else y0
  let days := daysFromCivil y m d
  let wd := Int.emod (days + 4) 7
  let wdName := (["Sun", "Mon", "Tue", "Wed", "Thu", "Fri", "Sat"].getD wd.toNat "Sun")
  let mName :=
    (["Jan", "Feb", "Mar", "Apr", "May", "Jun", "Jul", "Aug", "Sep", "Oct",
      "Nov", "Dec"].getD (m - 1).toNat "Jan")
  wdName ++ ", " ++ mName ++ " " ++ toString d

/-! ### Forecast summarization -/

/-- The `main` block of a forecast point; each temperature may be absent. -/
structure FMain where
  temp : Option ℚ
  temp_min : Option ℚ
  temp_max : Option ℚ
deriving DecidableEq, Repr

/-- One point of the forecast list: UTC timestamp `dt`, optional `main`
block, the `description` strings of the `weather` array, and an optional
precipitation probability `pop` (`typeof pop === "number"` becomes
`isSome`). -/
structure FPoint where
  dt : Int
  main : Option FMain
  weather : List String
  pop : Option ℚ
deriving DecidableEq, Repr

/-- `item.main?.temp_min ?? item.main?.temp ?? null`. -/
def minOf (item : FPoint) : Option ℚ := (item.main.bind FMain.temp_min) <|> (item.main.bind FMain.temp)

/-- `item.main?.temp_max ?? item.main?.temp ?? null`. -/
def maxOf (item : FPoint) : Option ℚ := (item.main.bind FMain.temp_max) <|> (item.main.bind FMain.temp)

/-- `item.weather?.[0]?.description ?? "unknown"`. -/
def descOf (item : FPoint) : String := item.weather.head?.getD "unknown"

/-- `typeof item.pop === "number" ? item.pop : 0`. -/
def popOf (item : FPoint) : ℚ := item.pop.getD 0

/-- The per-day accumulator the source keeps in its `byDay` map. -/
structure Agg where
  min : ℚ
  max : ℚ
  descCounts : List (String × Nat)
  popMax : ℚ
deriving DecidableEq, Repr

/-- Lookup in the insertion-ordered association list modelling a JS `Map`. -/
def getAssoc (m : List (String × Agg)) (k : String) : Option Agg :=
  match m with
  | [] => none
  | (k', v) :: rest => if k' = k then some v else getAssoc rest k

/-- `Map.prototype.set`: overwrite in place if the key exists (keeping its
position), append otherwise. -/
def setAssoc (m : List (String × Agg)) (k : String) (v : Agg) : List (String × Agg) :=
  match m with
  | [] => [(k, v)]
  | (k', v') :: rest => if k' = k then (k, v) :: rest else (k', v') :: setAssoc rest k v

/-- `descCounts.set(desc, (descCounts.get(desc) ?? 0) + 1)` on the
insertion-ordered association list modelling the description `Map`. -/
def bumpCount (counts : List (String × Nat)) (d : String) : List (String × Nat) :=
  match counts with
  | [] => [(d, 1)]
  | (d', c) :: rest => if d' = d then (d', c + 1) :: rest else (d', c) :: bumpCount rest d

/-- The mutation the loop body applies to a day's accumulator for one point
with usable temperatures `mn`/`mx`. -/
def applyPoint (a : Agg) (item : FPoint) (mn mx : ℚ) : Agg :=
  { min := min a.min mn
    max := max a.max mx
    descCounts := bumpCount a.descCounts (descOf item)
    popMax := max a.popMax (popOf item) }

/-- One iteration of the `for (const item of list)` loop: skip the point if
either derived temperature is `null`, otherwise get-or-initialize the day's
accumulator and fold the point in. -/
def stepByDay (tz : Int) (m : List (String × Agg)) (item : FPoint) : List (String × Agg) :=
  match minOf item, maxOf item with
  | some mn, some mx =>
    let key := dayKeyFromUtcWithOffset item.dt tz
    let a0 := (getAssoc m key).getD { min := mn, max := mx, descCounts := [], popMax := 0 }
    setAssoc m key (applyPoint a0 item mn mx)
  | _, _ => m

/-- The fully folded `byDay` map. -/
def buildByDay (list : List FPoint) (tz : Int) : List (String × Agg) :=
  list.foldl (stepByDay tz) []

/-- The `topDesc` selection loop: start from `("mixed conditions", 0)` and
replace the champion on a strictly greater count. -/
def topDescOf (counts : List (String × Nat)) : String :=
  (counts.foldl (fun acc e => if e.2 > acc.2 then e else acc) ("mixed conditions", 0)).1

/-- JavaScript `<` on (ASCII) strings: lexicographic by code unit. -/
def strLtB : List Char → List Char → Bool
  | [], [] => false
  | [], _ :: _ => true
  | _ :: _, [] => false
  | a :: as_, b :: bs =>
    if a.toNat < b.toNat then true else if b.toNat < a.toNat then false else strLtB as_ bs

/-- `a <= b` for the default `Array.prototype.sort()` comparator on strings. -/
def strLeB (a b : String) : Bool := !(strLtB b.data a.data)

/-- `strLeB` as a relation. -/
def strLe (a b : String) : Prop := strLeB a b = true

instance : DecidableRel strLe := fun a b => inferInstanceAs (Decidable (strLeB a b = true))

/-- `[...keys].sort()`: the default JS sort — the ascending lexicographic
reordering of the keys, here realised by insertion sort. -/
def sortStrings (l : List String) : List String := List.insertionSort strLe l

/-- The summary record `{ label, min, max, desc, pop }` for one day. -/
structure DaySummary where
  label : String
  min : ℚ
  max : ℚ
  desc : String
  pop : ℚ
deriving DecidableEq, Repr

/-- The day keys the source keeps: sorted keys minus today's key, unless that
leaves nothing, then all sorted keys; truncated to `days`. -/
def chosenKeys (list : List FPoint) (tz : Int) (days : Nat) (nowSec : Int) : List String :=
  let byDay := buildByDay list tz
  let nowKey := dayKeyFromUtcWithOffset nowSec tz
  let keys := sortStrings (byDay.map Prod.fst)
  let futureKeys := keys.filter (fun k => k ≠ nowKey)
  (if futureKeys.isEmpty then keys else futureKeys).take days

/-- `summarizeForecast(list, tzOffsetSeconds, days = 3)`.  `Date.now()` is an
explicit `nowSec` parameter (seconds, already floored).  The `byDay.get(k)`
at the end always succeeds because every chosen key is a key of the map; the
`.getD` default models the (unreachable) undefined access. -/
def summarizeForecast (list : List FPoint) (tz : Int) (days : Nat) (nowSec : Int) : List DaySummary :=
  let byDay := buildByDay list tz
  (chosenKeys list tz days nowSec).map (fun k =>
    let agg := (getAssoc byDay k).getD { min := 0, max := 0, descCounts := [], popMax := 0 }
    { label := labelFromKey k
      min := agg.min
      max := agg.max
      desc := topDescOf agg.descCounts
      pop := agg.popMax })

/-! ### The exported `getWeather`

Network effects are embedded as oracles in an `Env`: each oracle yields the
decoded JSON of a successful response, or `Except.error` for the non-success
transport outcome that makes `fetchJson` throw.  `getWeather` returns the
thrown-or-returned outcome together with the ordered list of network
requests it attempted. -/

/-- `main`/`wind` blocks of the current-conditions response. -/
structure CurMain where
  temp : Option ℚ
  feels_like : Option ℚ
  humidity : Option ℚ
deriving DecidableEq, Repr

structure CurWind where
  speed : Option ℚ
deriving DecidableEq, Repr

/-- The current-conditions response: an optional UTC offset `timezone`
(seconds), optional `main` and `wind` blocks and the `weather`
descriptions. -/
structure CurResp where
  timezone : Option Int
  main : Option CurMain
  wind : Option CurWind
  weather : List String
deriving DecidableEq, Repr

/-- The forecast response: its `list` of points, plus the offset the
provider reports for the same location in `city.timezone` — present in the
payload but never read by the module. -/
structure ForecastResp where
  city_timezone : Option Int
  list : Option (List FPoint)
deriving DecidableEq, Repr

/-- One attempted network request (the query/coordinates that parametrize
the URL). -/
inductive Request where
  | geocode (q : String)
  | current (lat lon : Int)
  | forecast (lat lon : Int)
deriving DecidableEq, Repr

/-- The process environment and the network, as oracles. -/
structure Env where
  apiKey : Option String
  geocode : String → Except String (List GeoMatch)
  currentW : Int → Int → Except String CurResp
  forecastW : Int → Int → Except String ForecastResp
  nowSec : Int

/-- The `current` record assembled for the success result. -/
structure CurrentOut where
  temp : Option ℚ
  feels : Option ℚ
  humidity : Option ℚ
  wind : Option ℚ
  desc : String
deriving DecidableEq, Repr

/-- The module's `Result`: `{ ok: false, message }` or
`{ ok: true, location, current, nextDays }`. -/
inductive GWResult where
  | fail (message : String)
  | success (location : String) (current : CurrentOut) (nextDays : List DaySummary)
deriving DecidableEq, Repr

/-- The `assertApiKey()` error message. -/
def missingKeyMsg : String :=
  "Missing OPENWEATHER_KEY env var. Add it to GitHub Secrets (Codespaces)."

/-- The `NotFound` business message. -/
def notFoundMsg (place : String) : String :=
  "Couldn't find **" ++ place ++ "**. Try \"Seattle, WA, US\" or \"Paris, FR\"."

/-- The numbered option lines of the disambiguation message:
`geo.slice(0, 3).map((g, i) => ...).join("\n")`. -/
def ambigOptions (geo : List GeoMatch) : String :=
  String.intercalate "\n"
    (((geo.take 3).enum).map (fun p =>
      "**" ++ toString (p.1 + 1) ++ ".** " ++ p.2.name ++
      (if p.2.state ≠ "" then ", " ++ p.2.state else "") ++ ", " ++ p.2.country))

/-- The full `AmbiguousLocation` business message. -/
def ambigMsg (place : String) (geo : List GeoMatch) : String :=
  "I found multiple matches for **" ++ place ++ "**:\n" ++ ambigOptions geo ++
  "\n\nTry adding state/country (ex: \"Houston, TX, US\" or \"Paris, FR\")."

/-- `${loc.name}${loc.state ? `, ${loc.state}` : ""}, ${loc.country}`. -/
def locNameOf (g : GeoMatch) : String :=
  g.name ++ (if g.state ≠ "" then ", " ++ g.state else "") ++ ", " ++ g.country

/-- The specificity heuristic applied to the normalized input:
`normalized.includes(",") || /united states|usa|\bus\b/i.test(normalized)`.
The regex alternation: `united states` or `usa` anywhere
(case-insensitively), or `us` delimited by word boundaries. -/
def isWordChar (c : Char) : Bool := c.isAlpha || c.isDigit || c = '_'

/-- Scan for a `\bus\b` occurrence; `prev` is the character before the scan
position (absent at the start of the string). -/
def usScan (prev : Option Char) : List Char → Bool
  | c1 :: c2 :: rest =>
    (Char.toLower c1 = 'u' && Char.toLower c2 = 's' &&
      (match prev with | none => true | some p => !isWordChar p) &&
      (match rest.head? with | none => true | some n => !isWordChar n)) ||
    usScan (some c1) (c2 :: rest)
  | _ => false

def seemsSpecificB (normalized : String) : Bool :=
  normalized.data.contains ',' ||
  containsSub "united states".data (lowerStr normalized).data ||
  containsSub "usa".data (lowerStr normalized).data ||
  usScan none normalized.data

/-- `[...new Set(xs)]`: first-occurrence deduplication of the candidate
queries. -/
def dedupFirst (l : List String) : List String :=
  l.foldl (fun acc s => if acc.contains s then acc else acc ++ [s]) []

/-- The candidate loop: geocode each query in order, throw on a transport
error, stop at the first non-empty result array (deduplicated), and report
`none` if every candidate came back empty. -/
def geoLoop (env : Env) : List String → List Request →
    Except String (Option (List GeoMatch)) × List Request
  | [], log => (Except.ok none, log)
  | q :: qs, log =>
    let log' := log ++ [Request.geocode q]
    match env.geocode q with
    | Except.error e => (Except.error e, log')
    | Except.ok arr =>
      if arr.length > 0 then (Except.ok (some (dedupeGeo arr)), log')
      else geoLoop env qs log'

/-- A placeholder for the JavaScript `undefined` produced by indexing an
empty array; every flow that reaches it is guarded by non-emptiness. -/
def dummyGeo : GeoMatch := { name := "", state := "", country := "", lat := 0, lon := 0 }

/-- `getWeather(place)`. -/
def getWeather (env : Env) (place : String) : Except String GWResult × List Request :=
  if env.apiKey.isNone then (Except.error missingKeyMsg, [])
  else
    let normalized := normalizePlace place
    let candidates := dedupFirst [normalized, maybeAppendUS normalized, normalized ++ ", US"]
    match geoLoop env candidates [] with
    | (Except.error e, log) => (Except.error e, log)
    | (Except.ok none, log) => (Except.ok (GWResult.fail (notFoundMsg place)), log)
    | (Except.ok (some geo0), log) =>
      if geo0.length > 1 && !seemsSpecificB normalized then
        (Except.ok (GWResult.fail (ambigMsg place geo0)), log)
      else
        let loc :=
          if geo0.length > 1 then (pickBestGeoMatch normalized geo0).getD dummyGeo
          else geo0.headD dummyGeo
        let locName := locNameOf loc
        let log := log ++ [Request.current loc.lat loc.lon]
        match env.currentW loc.lat loc.lon with
        | Except.error e => (Except.error e, log)
        | Except.ok cur =>
          let log := log ++ [Request.forecast loc.lat loc.lon]
          match env.forecastW loc.lat loc.lon with
          | Except.error e => (Except.error e, log)
          | Except.ok fc =>
            let tz := cur.timezone.getD 0
            let current : CurrentOut :=
              { temp := cur.main.bind CurMain.temp
                feels := cur.main.bind CurMain.feels_like
                humidity := cur.main.bind CurMain.humidity
                wind := cur.wind.bind CurWind.speed
                desc := cur.weather.head?.getD "unknown" }
            let nextDays := summarizeForecast (fc.list.getD []) tz 3 env.nowSec
            (Except.ok (GWResult.success locName current nextDays), log)

/-! ### Derived views of the summarizer, used to state and prove claims -/

/-- A point survives the skip test iff both derived temperatures exist. -/
def pointUsable (p : FPoint) : Bool := (minOf p).isSome && (maxOf p).isSome

/-- The usable points of the list that fall into day bucket `k`. -/
def ptsAt (list : List FPoint) (tz : Int) (k : String) : List FPoint :=
  list.filter (fun p => pointUsable p && dayKeyFromUtcWithOffset p.dt tz = k)

/-- The loop-body mutation for a usable point, with its temperatures read
off the point. -/
def mutateAgg (a : Agg) (p : FPoint) : Agg :=
  applyPoint a p ((minOf p).getD 0) ((maxOf p).getD 0)

/-- Fold a list of (usable) points into an accumulator. -/
def aggExtend (a : Agg) (l : List FPoint) : Agg := l.foldl mutateAgg a

/-- The fresh accumulator created for the first point of a bucket. -/
def initAggFor (p : FPoint) : Agg :=
  { min := (minOf p).getD 0, max := (maxOf p).getD 0, descCounts := [], popMax := 0 }

/-- The accumulator a bucket holds after folding its first point `p` and the
remaining points `l`. -/
def aggOfPoints (p : FPoint) (l : List FPoint) : Agg := aggExtend (initAggFor p) (p :: l)

/-- How an existing optional bucket is extended by a list of points. -/
def extOpt : Option Agg → List FPoint → Option Agg
  | none, [] => none
  | none, p :: l => some (aggOfPoints p l)
  | some a, l => some (aggExtend a l)

/-- The day keys of the usable points, in list order (with repetitions). -/
def usableKeys (list : List FPoint) (tz : Int) : List String :=
  (list.filter pointUsable).map (fun p => dayKeyFromUtcWithOffset p.dt tz)

/-- `dedupFirst` continued from an arbitrary accumulator. -/
def dedupFrom (acc : List String) (l : List String) : List String :=
  l.foldl (fun acc s => if acc.contains s then acc else acc ++ [s]) acc

/-- Running maximum of the Nat counts, seeded with `n`. -/
def maxFrom (counts : List (String × Nat)) (n : Nat) : Nat :=
  counts.foldl (fun m e => Nat.max m e.2) n

/-- The maximal description count of a day. -/
def maxCnt (counts : List (String × Nat)) : Nat := maxFrom counts 0

/-- The first entry of the insertion-ordered count list that attains the
maximal count. -/
def firstMaxDesc (counts : List (String × Nat)) : Option (String × Nat) :=
  counts.find? (fun e => maxCnt counts ≤ e.2)

/-! ### Claim-side definitions

Definitions in this section transcribe the *claim texts*, to be compared
with the definitions above, which transcribe the source. -/

/-- `appendCountryHint` as the claim words it: split on commas into trimmed
non-empty parts; with exactly two parts whose second is a two-letter
alphabetic token, return `"<city>, <STATE-UPPERCASED>, US"`, else the input
unchanged. -/
def appendCountryHintSpec (q : String) : String :=
  let parts := ((splitComma q.data).map (fun p => String.mk (trimJS p))).filter (fun s => s ≠ "")
  if parts.length = 2 && isTwoAlpha (parts.getD 1 "") then
    (parts.getD 0 "") ++ ", " ++ upperStr (parts.getD 1 "") ++ ", US"
  else q

/-- Deduplication as the claim words it: a match survives iff no *earlier*
match has the same `(lat, lon)` pair, in first-seen order. -/
def dedupeSpecC8 (l : List GeoMatch) : List GeoMatch :=
  (l.enum.filter
    (fun p => (l.take p.1).all (fun x => !(x.lat = p.2.lat && x.lon = p.2.lon)))).map
    Prod.snd

/-- The four rules of claim C1 taken literally: rule 1 uses the query's
comma-split *second segment* (trimmed, lowercased), rule 2 its comma-split
*third segment* (lowercased), neither trimmed of whitespace nor skipped when
empty. -/
def pickBestClaimC1 (query : String) (geoResults : List GeoMatch) : Option GeoMatch :=
  let q := lowerStr query
  let raw := (splitComma query.data).map String.mk
  let rule1 :=
    match raw.get? 1 with
    | some seg => geoResults.find? (fun g => lowerStr g.state = lowerStr (String.mk (trimJS seg.data)))
    | none => none
  let rule2 :=
    match raw.get? 2 with
    | some seg =>
      if (lowerStr seg).length ≤ 3 then
        geoResults.find? (fun g => lowerStr g.country = lowerStr seg)
      else none
    | none => none
  let rule3 :=
    geoResults.find? (fun g =>
      lowerStr g.state ≠ "" && containsSub (lowerStr g.state).data q.data)
  rule1 <|> rule2 <|> (rule3 <|> geoResults.head?)

/-- The four rules of claim C1 as amended: the segments are the *trimmed,
non-empty* comma-parts of the query, so rule 1 needs a second part (then
necessarily non-empty) and rule 2 a third part of length at most 3. -/
def pickBestAmendedC1 (query : String) (geoResults : List GeoMatch) : Option GeoMatch :=
  let q := lowerStr query
  let parts := commaParts query
  let rule1 :=
    if 2 ≤ parts.length then
      geoResults.find? (fun g => lowerStr g.state = lowerStr (parts.getD 1 ""))
    else none
  let rule2 :=
    if 3 ≤ parts.length && (lowerStr (parts.getD 2 "")).length ≤ 3 then
      geoResults.find? (fun g => lowerStr g.country = lowerStr (parts.getD 2 ""))
    else none
  let rule3 :=
    geoResults.find? (fun g =>
      lowerStr g.state ≠ "" && containsSub (lowerStr g.state).data q.data)
  rule1 <|> rule2 <|> (rule3 <|> geoResults.head?)

/-! ### Helper lemmas -/

theorem lowerStr_eq_empty_iff (s : String) : lowerStr s = "" ↔ s = "" := by
  constructor
  · intro h
    have h2 : s.data.map Char.toLower = [] := congrArg String.data h
    exact String.ext (List.map_eq_nil_iff.mp h2)
  · intro h
    subst h
    rfl

theorem commaParts_mem_ne_empty {s : String} {q : String} (h : s ∈ commaParts q) : s ≠ "" := by
  have := List.of_mem_filter h
  simpa using this

theorem commaParts_getD_ne_empty (q : String) (i : Nat) (h : i < (commaParts q).length) :
    ((commaParts q)[i]?).getD "" ≠ "" := by
  have hget : (commaParts q)[i]? = some ((commaParts q).get ⟨i, h⟩) := by
    rw [← List.get?_eq_getElem?]
    exact List.get?_eq_get h
  rw [hget]
  exact commaParts_mem_ne_empty (List.get_mem _ _ _)

theorem findIdx_eq_iff_take_all {α} (p : α → Bool) :
    ∀ (l : List α) (i : Nat) (x : α), l.get? i = some x → p x = true →
      ((l.findIdx p = i) ↔ (l.take i).all (fun y => !p y) = true) := by
  intro l
  induction l with
  | nil => intro i x h; simp at h
  | cons a as ih =>
    intro i x h hp
    cases i with
    | zero =>
      simp at h
      subst h
      simp [List.findIdx_cons, hp]
    | succ j =>
      simp only [List.get?_cons_succ] at h
      rw [List.findIdx_cons]
      cases hpa : p a with
      | true => simp [hpa]
      | false => simp [hpa, ih j x h hp]

theorem getAssoc_setAssoc_self (m : List (String × Agg)) (k : String) (v : Agg) :
    getAssoc (setAssoc m k v) k = some v := by
  induction m with
  | nil => simp [setAssoc, getAssoc]
  | cons e rest ih =>
    by_cases h : e.1 = k
    · simp [setAssoc, getAssoc, h]
    · simp [setAssoc, getAssoc, h, ih]

theorem getAssoc_setAssoc_other (m : List (String × Agg)) (k k' : String) (v : Agg)
    (h : k ≠ k') : getAssoc (setAssoc m k v) k' = getAssoc m k' := by
  induction m with
  | nil => simp [setAssoc, getAssoc, h]
  | cons e rest ih =>
    by_cases he : e.1 = k
    · simp [setAssoc, getAssoc, he, h]
    · simp only [setAssoc, getAssoc, if_neg he]
      by_cases he' : e.1 = k'
      · simp [he']
      · simp [he', ih]

theorem aggExtend_cons (a : Agg) (p : FPoint) (l : List FPoint) :
    aggExtend a (p :: l) = aggExtend (mutateAgg a p) l := rfl

theorem extOpt_some (a : Agg) (l : List FPoint) : extOpt (some a) l = some (aggExtend a l) := rfl

theorem getAssoc_foldl_step (tz : Int) :
    ∀ (pts : List FPoint) (m : List (String × Agg)) (k : String),
      getAssoc (pts.foldl (stepByDay tz) m) k =
        extOpt (getAssoc m k)
          (pts.filter (fun p => pointUsable p && dayKeyFromUtcWithOffset p.dt tz = k)) := by
  intro pts
  induction pts with
  | nil =>
    intro m k
    cases h : getAssoc m k with
    | none => simp [h, extOpt]
    | some a => simp [h, extOpt, aggExtend]
  | cons p pts ih =>
    intro m k
    rw [List.foldl_cons]
    by_cases hu : pointUsable p = true
    · obtain ⟨mn, hmin⟩ : ∃ mn, minOf p = some mn := by
        rcases h' : minOf p with _ | mn
        · simp [pointUsable, h'] at hu
        · exact ⟨mn, rfl⟩
      obtain ⟨mx, hmax⟩ : ∃ mx, maxOf p = some mx := by
        rcases h' : maxOf p with _ | mx
        · simp [pointUsable, h'] at hu
        · exact ⟨mx, rfl⟩
      have hstep : stepByDay tz m p =
          setAssoc m (dayKeyFromUtcWithOffset p.dt tz)
            (applyPoint
              ((getAssoc m (dayKeyFromUtcWithOffset p.dt tz)).getD
                { min := mn, max := mx, descCounts := [], popMax := 0 })
              p mn mx) := by
        simp [stepByDay, hmin, hmax]
      have hmut : ∀ a : Agg, applyPoint a p mn mx = mutateAgg a p := by
        intro a
        simp [mutateAgg, hmin, hmax]
      by_cases hk : dayKeyFromUtcWithOffset p.dt tz = k
      · have hfil :
            List.filter (fun q => pointUsable q && decide (dayKeyFromUtcWithOffset q.dt tz = k))
                (p :: pts) =
              p :: List.filter
                (fun q => pointUsable q && decide (dayKeyFromUtcWithOffset q.dt tz = k)) pts := by
          simp [List.filter_cons, hu, hk]
        rw [hfil, hstep, ih, hk, getAssoc_setAssoc_self]
        cases hm : getAssoc m k with
        | none =>
          rw [Option.getD_none, hmut]
          show extOpt _ _ = extOpt none (p :: _)
          rw [extOpt_some]
          show _ = some (aggOfPoints p _)
          rw [aggOfPoints, aggExtend_cons]
          have : mutateAgg (initAggFor p) p =
              mutateAgg { min := mn, max := mx, descCounts := [], popMax := 0 } p := by
            simp [initAggFor, hmin, hmax]
          rw [this]
        | some a =>
          rw [Option.getD_some, hmut, extOpt_some, extOpt_some, aggExtend_cons]
      · have hfil :
            List.filter (fun q => pointUsable q && decide (dayKeyFromUtcWithOffset q.dt tz = k))
                (p :: pts) =
              List.filter
                (fun q => pointUsable q && decide (dayKeyFromUtcWithOffset q.dt tz = k)) pts := by
          simp [List.filter_cons, hk]
        rw [hfil, hstep, ih, getAssoc_setAssoc_other _ _ _ _ hk]
    · have hstep : stepByDay tz m p = m := by
        rcases h' : minOf p with _ | mn
        · simp [stepByDay, h']
        · rcases h'' : maxOf p with _ | mx
          · simp [stepByDay, h', h'']
          · exact absurd (by simp [pointUsable, h', h'']) hu
      have hfil :
          List.filter (fun q => pointUsable q && decide (dayKeyFromUtcWithOffset q.dt tz = k))
              (p :: pts) =
            List.filter
              (fun q => pointUsable q && decide (dayKeyFromUtcWithOffset q.dt tz = k)) pts := by
        have : pointUsable p = false := by
          cases h' : pointUsable p
          · rfl
          · exact absurd h' hu
        simp [List.filter_cons, this]
      rw [hfil, hstep]
      exact ih m k

/-- `getAssoc` on the fully built map: the bucket of key `k` is exactly the
fold of the usable points whose day key is `k`, or absent if there are
none. -/
theorem getAssoc_buildByDay (list : List FPoint) (tz : Int) (k : String) :
    getAssoc (buildByDay list tz) k =
      match ptsAt list tz k with
      | [] => none
      | p :: l => some (aggOfPoints p l) := by
  have := getAssoc_foldl_step tz list [] k
  rw [buildByDay]
  rw [this]
  show extOpt none (ptsAt list tz k) = _
  cases ptsAt list tz k with
  | nil => rfl
  | cons p l => rfl

theorem getAssoc_eq_none_iff (m : List (String × Agg)) (k : String) :
    getAssoc m k = none ↔ k ∉ m.map Prod.fst := by
  induction m with
  | nil => simp [getAssoc]
  | cons e rest ih =>
    by_cases h : e.1 = k
    · simp [getAssoc, h]
    · simp [getAssoc, h, ih, Ne.symm h]

theorem mapFst_setAssoc_mem (m : List (String × Agg)) (k : String) (v : Agg)
    (h : ¬ getAssoc m k = none) : (setAssoc m k v).map Prod.fst = m.map Prod.fst := by
  induction m with
  | nil => simp [getAssoc] at h
  | cons e rest ih =>
    by_cases he : e.1 = k
    · simp [setAssoc, he]
    · have h' : ¬ getAssoc rest k = none := by
        simpa [getAssoc, he] using h
      simp [setAssoc, he, ih h']

theorem mapFst_setAssoc_new (m : List (String × Agg)) (k : String) (v : Agg)
    (h : getAssoc m k = none) : (setAssoc m k v).map Prod.fst = m.map Prod.fst ++ [k] := by
  induction m with
  | nil => simp [setAssoc]
  | cons e rest ih =>
    by_cases he : e.1 = k
    · simp [getAssoc, he] at h
    · have h' : getAssoc rest k = none := by simpa [getAssoc, he] using h
      simp [setAssoc, he, ih h']

theorem contains_iff_mem_strings (l : List String) (s : String) :
    l.contains s = true ↔ s ∈ l := by
  induction l with
  | nil => simp
  | cons a as ih => simp only [List.contains_cons, Bool.or_eq_true, beq_iff_eq, List.mem_cons, ih]

theorem mapFst_foldl_step (tz : Int) :
    ∀ (pts : List FPoint) (m : List (String × Agg)),
      (pts.foldl (stepByDay tz) m).map Prod.fst =
        dedupFrom (m.map Prod.fst) (usableKeys pts tz) := by
  intro pts
  induction pts with
  | nil => intro m; rfl
  | cons p pts ih =>
    intro m
    rw [List.foldl_cons]
    by_cases hu : pointUsable p = true
    · obtain ⟨mn, hmin⟩ : ∃ mn, minOf p = some mn := by
        rcases h' : minOf p with _ | mn
        · simp [pointUsable, h'] at hu
        · exact ⟨mn, rfl⟩
      obtain ⟨mx, hmax⟩ : ∃ mx, maxOf p = some mx := by
        rcases h' : maxOf p with _ | mx
        · simp [pointUsable, h'] at hu
        · exact ⟨mx, rfl⟩
      have hstep : stepByDay tz m p =
          setAssoc m (dayKeyFromUtcWithOffset p.dt tz)
            (applyPoint
              ((getAssoc m (dayKeyFromUtcWithOffset p.dt tz)).getD
                { min := mn, max := mx, descCounts := [], popMax := 0 })
              p mn mx) := by
        simp [stepByDay, hmin, hmax]
      have hkeys : usableKeys (p :: pts) tz =
          dayKeyFromUtcWithOffset p.dt tz :: usableKeys pts tz := by
        simp [usableKeys, List.filter_cons, hu]
      rw [hstep, ih, hkeys]
      by_cases hm : getAssoc m (dayKeyFromUtcWithOffset p.dt tz) = none
      · have hnc : (m.map Prod.fst).contains (dayKeyFromUtcWithOffset p.dt tz) = false := by
          rcases h' : (m.map Prod.fst).contains (dayKeyFromUtcWithOffset p.dt tz) with _ | _
          · rfl
          · exact absurd ((contains_iff_mem_strings _ _).mp h')
              ((getAssoc_eq_none_iff m _).mp hm)
        rw [mapFst_setAssoc_new m _ _ hm]
        show dedupFrom _ _ = _
        simp only [dedupFrom, List.foldl_cons, hnc, Bool.false_eq_true, if_false]
      · have hc : (m.map Prod.fst).contains (dayKeyFromUtcWithOffset p.dt tz) = true := by
          rw [contains_iff_mem_strings]
          by_contra hmem
          exact hm ((getAssoc_eq_none_iff m _).mpr hmem)
        rw [mapFst_setAssoc_mem m _ _ hm]
        show dedupFrom _ _ = _
        simp only [dedupFrom, List.foldl_cons, hc, if_true]
    · have hstep : stepByDay tz m p = m := by
        rcases h' : minOf p with _ | mn
        · simp [stepByDay, h']
        · rcases h'' : maxOf p with _ | mx
          · simp [stepByDay, h', h'']
          · exact absurd (by simp [pointUsable, h', h'']) hu
      have hupf : pointUsable p = false := by
        cases h' : pointUsable p
        · rfl
        · exact absurd h' hu
      have hkeys : usableKeys (p :: pts) tz = usableKeys pts tz := by
        simp [usableKeys, List.filter_cons, hupf]
      rw [hstep, ih, hkeys]

/-- The key list of the built map is the first-occurrence deduplication of
the usable points' day keys, in encounter order. -/
theorem mapFst_buildByDay (list : List FPoint) (tz : Int) :
    (buildByDay list tz).map Prod.fst = dedupFirst (usableKeys list tz) :=
  mapFst_foldl_step tz list []

theorem strLtB_asymm : ∀ a b : List Char, strLtB a b = true → strLtB b a = false := by
  intro a
  induction a with
  | nil => intro b h; cases b <;> simp_all [strLtB]
  | cons x xs ih =>
    intro b h
    cases b with
    | nil => simp [strLtB] at h
    | cons y ys =>
      simp only [strLtB] at h ⊢
      by_cases hxy : x.toNat < y.toNat
      · have hyx : ¬ y.toNat < x.toNat := by omega
        simp [hxy, hyx]
      · by_cases hyx : y.toNat < x.toNat
        · simp [hxy, hyx] at h
        · simp only [hxy, hyx, if_false] at h ⊢
          exact ih ys h

theorem strLtB_chain : ∀ c a b : List Char,
    strLtB c a = true → strLtB c b = true ∨ strLtB b a = true := by
  intro c
  induction c with
  | nil =>
    intro a b h
    cases a with
    | nil => simp [strLtB] at h
    | cons z zs =>
      cases b with
      | nil => right; simp [strLtB]
      | cons y ys => left; simp [strLtB]
  | cons x xs ih =>
    intro a b h
    cases a with
    | nil => simp [strLtB] at h
    | cons z zs =>
      cases b with
      | nil => right; simp [strLtB]
      | cons y ys =>
        simp only [strLtB] at h ⊢
        by_cases hxz : x.toNat < z.toNat
        · by_cases hxy : x.toNat < y.toNat
          · left; simp [hxy]
          · have hyz : y.toNat < z.toNat := by omega
            right
            have : ¬ z.toNat < y.toNat := by omega
            simp [hyz]
        · by_cases hzx : z.toNat < x.toNat
          · simp [hxz, hzx] at h
          · have hrec : strLtB xs zs = true := by simpa [hxz, hzx] using h
            by_cases hxy : x.toNat < y.toNat
            · left; simp [hxy]
            · by_cases hyx : y.toNat < x.toNat
              · right
                have hyz : y.toNat < z.toNat := by omega
                simp [hyz]
              · rcases ih zs ys hrec with h' | h'
                · left
                  simp [hxy, hyx, h']
                · right
                  have hzy : ¬ z.toNat < y.toNat := by omega
                  have hyz : ¬ y.toNat < z.toNat := by omega
                  simp [hyz, hzy, h']

instance : IsTotal String strLe :=
  ⟨by
    intro a b
    by_cases h : strLtB b.data a.data = true
    · right
      have := strLtB_asymm _ _ h
      simp [strLe, strLeB, this]
    · left
      simp only [Bool.not_eq_true] at h
      simp [strLe, strLeB, h]⟩

instance : IsTrans String strLe :=
  ⟨by
    intro a b c hab hbc
    simp only [strLe, strLeB, Bool.not_eq_true'] at hab hbc ⊢
    by_contra hca
    simp only [Bool.not_eq_false] at hca
    rcases strLtB_chain c.data a.data b.data hca with h | h
    · rw [h] at hbc; exact Bool.noConfusion hbc
    · rw [h] at hab; exact Bool.noConfusion hab⟩

theorem mem_dedupFrom : ∀ (l : List String) (acc : List String) (s : String),
    s ∈ dedupFrom acc l ↔ s ∈ acc ∨ s ∈ l := by
  intro l
  induction l with
  | nil => intro acc s; simp [dedupFrom]
  | cons x xs ih =>
    intro acc s
    show s ∈ dedupFrom (if acc.contains x then acc else acc ++ [x]) xs ↔ _
    rw [ih]
    by_cases hc : acc.contains x = true
    · have hx : x ∈ acc := (contains_iff_mem_strings _ _).mp hc
      simp only [hc, if_true, List.mem_cons]
      constructor
      · rintro (h | h)
        · exact Or.inl h
        · exact Or.inr (Or.inr h)
      · rintro (h | h | h)
        · exact Or.inl h
        · exact Or.inl (h ▸ hx)
        · exact Or.inr h
    · have : acc.contains x = false := by
        cases h' : acc.contains x
        · rfl
        · exact absurd h' hc
      simp only [this, Bool.false_eq_true, if_false, List.mem_append, List.mem_singleton,
        List.mem_cons]
      tauto

theorem mem_dedupFirst (l : List String) (s : String) : s ∈ dedupFirst l ↔ s ∈ l := by
  have : dedupFirst l = dedupFrom [] l := rfl
  rw [this, mem_dedupFrom]
  simp

theorem le_maxFrom : ∀ (cs : List (String × Nat)) (n : Nat), n ≤ maxFrom cs n := by
  intro cs
  induction cs with
  | nil => intro n; exact Nat.le_refl n
  | cons e rest ih =>
    intro n
    calc n ≤ Nat.max n e.2 := Nat.le_max_left _ _
    _ ≤ maxFrom rest (Nat.max n e.2) := ih _

theorem mem_le_maxFrom : ∀ (cs : List (String × Nat)) (n : Nat) (x : String × Nat),
    x ∈ cs → x.2 ≤ maxFrom cs n := by
  intro cs
  induction cs with
  | nil => intro n x h; simp at h
  | cons e rest ih =>
    intro n x h
    rcases List.mem_cons.mp h with h | h
    · subst h
      calc x.2 ≤ Nat.max n x.2 := Nat.le_max_right _ _
      _ ≤ maxFrom rest _ := le_maxFrom _ _
    · exact ih _ x h

theorem maxFrom_of_all_le : ∀ (cs : List (String × Nat)) (n : Nat),
    (∀ x ∈ cs, x.2 ≤ n) → maxFrom cs n = n := by
  intro cs
  induction cs with
  | nil => intro n _; rfl
  | cons e rest ih =>
    intro n h
    have he : e.2 ≤ n := h e (List.mem_cons_self _ _)
    have : Nat.max n e.2 = n := Nat.max_eq_left he
    show maxFrom rest (Nat.max n e.2) = n
    rw [this]
    exact ih n (fun x hx => h x (List.mem_cons_of_mem _ hx))

theorem topScan_of_all_le : ∀ (cs : List (String × Nat)) (acc : String × Nat),
    (∀ e ∈ cs, e.2 ≤ acc.2) →
    cs.foldl (fun acc e => if e.2 > acc.2 then e else acc) acc = acc := by
  intro cs
  induction cs with
  | nil => intro acc _; rfl
  | cons e rest ih =>
    intro acc h
    have he : e.2 ≤ acc.2 := h e (List.mem_cons_self _ _)
    have hng : ¬ (e.2 > acc.2) := by omega
    rw [List.foldl_cons, if_neg hng]
    exact ih acc (fun x hx => h x (List.mem_cons_of_mem _ hx))

theorem topScan_finds_first_max : ∀ (cs : List (String × Nat)) (acc : String × Nat),
    acc.2 < maxFrom cs acc.2 →
    ∃ e, cs.find? (fun e => maxFrom cs acc.2 ≤ e.2) = some e ∧
      cs.foldl (fun acc e => if e.2 > acc.2 then e else acc) acc = e := by
  intro cs
  induction cs with
  | nil =>
    intro acc h
    exact absurd h (by simp [maxFrom])
  | cons e rest ih =>
    intro acc h
    have hM : maxFrom (e :: rest) acc.2 = maxFrom rest (Nat.max acc.2 e.2) := rfl
    by_cases he : e.2 > acc.2
    · have hmax : Nat.max acc.2 e.2 = e.2 := Nat.max_eq_right (by omega)
      by_cases hall : ∀ x ∈ rest, x.2 ≤ e.2
      · have hMfull : maxFrom (e :: rest) acc.2 = e.2 := by
          rw [hM, hmax]
          exact maxFrom_of_all_le rest e.2 hall
        refine ⟨e, ?_, ?_⟩
        · exact List.find?_cons_of_pos _ (by simp [hMfull])
        · rw [List.foldl_cons, if_pos he]
          exact topScan_of_all_le rest e hall
      · push_neg at hall
        obtain ⟨x, hx, hxgt⟩ := hall
        have hrest : e.2 < maxFrom rest e.2 :=
          Nat.lt_of_lt_of_le hxgt (mem_le_maxFrom rest e.2 x hx)
        obtain ⟨e', hfind, hfold⟩ := ih e hrest
        have hMfull : maxFrom (e :: rest) acc.2 = maxFrom rest e.2 := by rw [hM, hmax]
        refine ⟨e', ?_, ?_⟩
        · rw [List.find?_cons_of_neg]
          · rw [hMfull]; exact hfind
          · simp only [decide_eq_true_eq, not_le, hMfull]
            exact hrest
        · rw [List.foldl_cons, if_pos he]
          exact hfold
    · have hle : e.2 ≤ acc.2 := by omega
      have hmax : Nat.max acc.2 e.2 = acc.2 := Nat.max_eq_left hle
      have hMfull : maxFrom (e :: rest) acc.2 = maxFrom rest acc.2 := by rw [hM, hmax]
      have hrest : acc.2 < maxFrom rest acc.2 := by rw [hMfull] at h; exact h
      obtain ⟨e', hfind, hfold⟩ := ih acc hrest
      refine ⟨e', ?_, ?_⟩
      · rw [List.find?_cons_of_neg]
        · rw [hMfull]; exact hfind
        · simp only [decide_eq_true_eq, not_le, hMfull]
          omega
      · rw [List.foldl_cons, if_neg he]
        exact hfold

theorem aggExtend_popMax : ∀ (l : List FPoint) (a : Agg),
    (aggExtend a l).popMax = l.foldl (fun m q => Max.max m (popOf q)) a.popMax := by
  intro l
  induction l with
  | nil => intro a; rfl
  | cons q l ih =>
    intro a
    rw [aggExtend_cons, List.foldl_cons, ih]
    rfl

theorem aggExtend_descCounts : ∀ (l : List FPoint) (a : Agg),
    (aggExtend a l).descCounts = l.foldl (fun c q => bumpCount c (descOf q)) a.descCounts := by
  intro l
  induction l with
  | nil => intro a; rfl
  | cons q l ih =>
    intro a
    rw [aggExtend_cons, List.foldl_cons, ih]
    rfl

/-! ### Claim C8 -/

/-- C8: `dedupeGeo` keeps exactly the matches with no earlier equal
`(lat, lon)` pair, preserving first-seen order; in particular two entries
that differ only in the casing of `name` but share coordinates collapse to
the first. -/
theorem dedupeGeo_keeps_first_occurrences :
    (∀ l : List GeoMatch, dedupeGeo l = dedupeSpecC8 l) ∧
    dedupeGeo
        [{ name := "Rome", state := "", country := "IT", lat := 41, lon := 12 },
         { name := "rome", state := "", country := "IT", lat := 41, lon := 12 },
         { name := "Rome", state := "Georgia", country := "US", lat := 34, lon := -85 }] =
      [{ name := "Rome", state := "", country := "IT", lat := 41, lon := 12 },
       { name := "Rome", state := "Georgia", country := "US", lat := 34, lon := -85 }] := by
  constructor
  · intro l
    unfold dedupeGeo dedupeSpecC8
    congr 1
    apply List.filter_congr'
    intro p hp
    have hget : l.get? p.1 = some p.2 := List.mem_enum_iff_get?.mp hp
    have hself : (fun x => x.lat = p.2.lat && x.lon = p.2.lon) p.2 = true := by simp
    have hiff := findIdx_eq_iff_take_all (fun x => x.lat = p.2.lat && x.lon = p.2.lon)
      l p.1 p.2 hget hself
    by_cases hidx : l.findIdx (fun x => x.lat = p.2.lat && x.lon = p.2.lon) = p.1
    · simp only [hidx, decide_True, hiff.mp hidx]
    · have hall : ¬ ((l.take p.1).all (fun y => !(y.lat = p.2.lat && y.lon = p.2.lon)) = true) :=
        fun hh => hidx (hiff.mpr hh)
      rw [decide_eq_false hidx]
      exact (Bool.eq_false_iff.mpr hall).symm
  · decide

/-! ### Claim C7 -/

/-- C7: `maybeAppendUS` behaves exactly as the claim describes — trimmed
non-empty comma-parts, the `"City, ST"` shape is rewritten to
`"City, ST, US"` with the state uppercased, everything else is returned
unchanged — and the claim's two examples hold. -/
theorem maybeAppendUS_matches_claim :
    (∀ q, maybeAppendUS q = appendCountryHintSpec q) ∧
    maybeAppendUS "Austin, TX" = "Austin, TX, US" ∧
    maybeAppendUS "Paris, France" = "Paris, France" :=
  ⟨fun _ => rfl, by decide, by decide⟩

/-! ### Claim C1 -/

def c1m1 : GeoMatch := { name := "A", state := "tx", country := "us", lat := 1, lon := 1 }

def c1m2 : GeoMatch := { name := "B", state := "", country := "us", lat := 2, lon := 2 }

/-- C1 as stated is false: for the query `"x,"` its comma-split second
segment is `""` (trimmed, lowercased it stays `""`), which "exactly equals"
the second match's empty state field, so the claim's rule 1 would return the
second match — but the source discards empty comma-parts, finds no state or
country token, and falls through to the first match. -/
theorem pickBestGeoMatch_claim_counterexample :
    pickBestGeoMatch "x," [c1m1, c1m2] = some c1m1 ∧
    pickBestClaimC1 "x," [c1m1, c1m2] = some c1m2 ∧
    pickBestGeoMatch "x," [c1m1, c1m2] ≠ pickBestClaimC1 "x," [c1m1, c1m2] := by
  refine ⟨by decide, by decide, by decide⟩

theorem isSome_orElse_right {a b : Option GeoMatch} (h : b.isSome = true) :
    (a <|> b).isSome = true := by
  cases a <;> simp [Option.orElse] <;> exact h

/-- C1 amended: with the segments taken as the source takes them — split on
commas, trim each part, discard empty parts — `pickBestGeoMatch` is exactly
the four-rule cascade of the claim, and it returns a match whenever the list
is non-empty. -/
theorem pickBestGeoMatch_amended :
    (∀ query ms, pickBestGeoMatch query ms = pickBestAmendedC1 query ms) ∧
    (∀ query (ms : List GeoMatch), ms ≠ [] → (pickBestGeoMatch query ms).isSome = true) := by
  constructor
  · intro query ms
    simp only [pickBestGeoMatch, pickBestAmendedC1]
    by_cases h2 : 2 ≤ (commaParts query).length
    · have hne1 : lowerStr (((commaParts query)[1]?).getD "") ≠ "" := by
        rw [Ne, lowerStr_eq_empty_iff]
        exact commaParts_getD_ne_empty query 1 (by omega)
      by_cases h3 : 3 ≤ (commaParts query).length
      · have hne2 : lowerStr (((commaParts query)[2]?).getD "") ≠ "" := by
          rw [Ne, lowerStr_eq_empty_iff]
          exact commaParts_getD_ne_empty query 2 (by omega)
        simp [h2, h3, hne1, hne2]
      · simp [h2, h3, hne1]
    · have h3 : ¬ (3 ≤ (commaParts query).length) := by omega
      simp [h2, h3]
  · intro query ms hne
    simp only [pickBestGeoMatch]
    apply isSome_orElse_right
    apply isSome_orElse_right
    apply isSome_orElse_right
    cases ms with
    | nil => exact absurd rfl hne
    | cons m rest => simp

/-- Witness for the amended C1 theorem at a concrete non-empty list. -/
theorem pickBestGeoMatch_amended_witness :
    (pickBestGeoMatch "Paris, Texas" [c1m1, c1m2]).isSome = true :=
  pickBestGeoMatch_amended.2 "Paris, Texas" [c1m1, c1m2] (by decide)

/-! ### Claim C2 -/

/-- A forecast point with a usable max temperature (`temp_max = 50`) but no
usable min (`temp_min` and `temp` both absent). -/
def c2point : FPoint :=
  { dt := 90000
    main := some { temp := none, temp_min := none, temp_max := some 50 }
    weather := ["cloudy"]
    pop := none }

theorem buildByDay_filter_usable (tz : Int) :
    ∀ (pts : List FPoint) (m : List (String × Agg)),
      pts.foldl (stepByDay tz) m = (pts.filter pointUsable).foldl (stepByDay tz) m := by
  intro pts
  induction pts with
  | nil => intro m; rfl
  | cons p pts ih =>
    intro m
    by_cases hu : pointUsable p = true
    · rw [List.filter_cons_of_pos hu, List.foldl_cons, List.foldl_cons, ih]
    · have hupf : pointUsable p = false := by
        cases h' : pointUsable p
        · rfl
        · exact absurd h' hu
      have hstep : stepByDay tz m p = m := by
        rcases h' : minOf p with _ | mn
        · simp [stepByDay, h']
        · rcases h'' : maxOf p with _ | mx
          · simp [stepByDay, h', h'']
          · exact absurd (by simp [pointUsable, h', h'']) hu
      rw [List.filter_cons_of_neg hu, List.foldl_cons, hstep, ih]

/-- C2 as stated is false: `c2point` does not lack *both* a usable min and a
usable max (its max is usable), yet the source skips it — the summary of a
list consisting of that point alone is empty, its day bucket absent. -/
theorem summarizeForecast_skip_counterexample :
    minOf c2point = none ∧ ¬ (maxOf c2point = none) ∧
    summarizeForecast [c2point] 0 3 0 = [] := by
  refine ⟨by decide, by decide, by decide⟩

/-- C2 amended: a point is skipped exactly when *either* derived temperature
is missing (`temp_min ?? temp` or `temp_max ?? temp` is null) — the
summarizer ignores exactly the non-usable points, never fails, and a day
bucket exists iff some usable point falls on it (so a day emptied by
skipping is absent). -/
theorem summarizeForecast_skips_amended :
    (∀ (list : List FPoint) (tz : Int) (days : Nat) (now : Int),
      summarizeForecast list tz days now =
        summarizeForecast (list.filter pointUsable) tz days now) ∧
    (∀ (list : List FPoint) (tz : Int) (k : String),
      (getAssoc (buildByDay list tz) k).isSome = true ↔
        ∃ p ∈ list, pointUsable p = true ∧ dayKeyFromUtcWithOffset p.dt tz = k) := by
  constructor
  · intro list tz days now
    have hb : buildByDay list tz = buildByDay (list.filter pointUsable) tz := by
      rw [buildByDay, buildByDay, buildByDay_filter_usable]
    simp only [summarizeForecast, chosenKeys, hb]
  · intro list tz k
    rw [getAssoc_buildByDay]
    cases hpts : ptsAt list tz k with
    | nil =>
      simp only [Option.isSome_none, Bool.false_eq_true, false_iff]
      rintro ⟨p, hp, hu, hk⟩
      have := List.filter_eq_nil_iff.mp hpts p hp
      simp [hu, hk] at this
    | cons p l =>
      simp only [Option.isSome_some, true_iff]
      have hp : p ∈ ptsAt list tz k := by rw [hpts]; exact List.mem_cons_self _ _
      have hmem : p ∈ list := List.mem_of_mem_filter hp
      have hcond := List.of_mem_filter hp
      simp only [Bool.and_eq_true, decide_eq_true_eq] at hcond
      exact ⟨p, hmem, hcond.1, hcond.2⟩

/-! ### Claim C9 -/

/-- C9: (1) the chosen description of a non-empty count list (all counts at
least 1) is the first entry attaining the maximal count; (2) a day bucket's
`popMax` is the running maximum — seeded with 0 — of the precipitation
probabilities of that day's usable points, a missing probability
contributing 0, and its `descCounts` the insertion-ordered counts; (3) a
day holding two points with distinct descriptions, each once, summarizes to
the first-encountered description. -/
theorem summarize_desc_pop_matches_claim :
    (∀ counts : List (String × Nat), counts ≠ [] → (∀ e ∈ counts, 1 ≤ e.2) →
      ∃ e, firstMaxDesc counts = some e ∧ topDescOf counts = e.1) ∧
    (∀ (list : List FPoint) (tz : Int) (k : String) (p : FPoint) (l : List FPoint),
      ptsAt list tz k = p :: l →
      ∃ a, getAssoc (buildByDay list tz) k = some a ∧
        a.popMax =
          (p :: l).foldl
            (fun m q => Max.max m (match q.pop with | some v => v | none => 0)) 0 ∧
        a.descCounts = (p :: l).foldl (fun c q => bumpCount c (descOf q)) []) ∧
    (summarizeForecast
        [{ dt := 90000, main := some { temp := some 10, temp_min := none, temp_max := none },
           weather := ["rain"], pop := none },
         { dt := 100000, main := some { temp := some 20, temp_min := none, temp_max := none },
           weather := ["snow"], pop := none }] 0 3 0).map DaySummary.desc = ["rain"] := by
  refine ⟨?_, ?_, by decide⟩
  · intro counts hne h1
    have hpos : (0 : Nat) < maxFrom counts 0 := by
      cases counts with
      | nil => exact absurd rfl hne
      | cons e rest =>
        have : e.2 ≤ maxFrom (e :: rest) 0 := mem_le_maxFrom _ _ e (List.mem_cons_self _ _)
        have h1e : 1 ≤ e.2 := h1 e (List.mem_cons_self _ _)
        omega
    obtain ⟨e, hfind, hfold⟩ :=
      topScan_finds_first_max counts ("mixed conditions", 0) hpos
    refine ⟨e, ?_, ?_⟩
    · exact hfind
    · rw [topDescOf, hfold]
  · intro list tz k p l hpts
    rw [getAssoc_buildByDay, hpts]
    refine ⟨aggOfPoints p l, rfl, ?_, ?_⟩
    · show (aggExtend (initAggFor p) (p :: l)).popMax = _
      rw [aggExtend_popMax]
      have hfun : (fun (m : ℚ) (q : FPoint) => Max.max m (popOf q)) =
          (fun (m : ℚ) (q : FPoint) =>
            Max.max m (match q.pop with | some v => v | none => 0)) := by
        funext m q
        cases hq : q.pop with
        | none => simp [popOf, hq]
        | some v => simp [popOf, hq]
      rw [show (initAggFor p).popMax = 0 from rfl, hfun]
    · show (aggExtend (initAggFor p) (p :: l)).descCounts = _
      rw [aggExtend_descCounts]
      rfl

/-- A fully usable forecast point on 1970-01-02 with a precipitation
probability, for concrete instantiations. -/
def c2pointUsable : FPoint :=
  { dt := 90000
    main := some { temp := some 15, temp_min := some 10, temp_max := some 20 }
    weather := ["rain"]
    pop := some 1 }

/-- Witness for C9 at concrete inputs: a tied count list and a singleton
forecast. -/
theorem summarize_desc_pop_witness :
    (∃ e, firstMaxDesc [("rain", 1), ("snow", 1)] = some e ∧
      topDescOf [("rain", 1), ("snow", 1)] = e.1) ∧
    (∃ a, getAssoc (buildByDay [c2pointUsable] 0) "1970-01-02" = some a ∧
      a.popMax =
        ([c2pointUsable]).foldl
          (fun m q => Max.max m (match q.pop with | some v => v | none => 0)) 0 ∧
      a.descCounts = ([c2pointUsable]).foldl (fun c q => bumpCount c (descOf q)) []) :=
  ⟨summarize_desc_pop_matches_claim.1 [("rain", 1), ("snow", 1)] (by decide)
      (by decide),
    summarize_desc_pop_matches_claim.2.1 [c2pointUsable] 0 "1970-01-02" c2pointUsable []
      (by decide)⟩

/-! ### Claim C5 -/

/-- The day keys C5 predicts remain before truncation: "today" computed from
the current instant shifted by the same offset, excluded exactly when some
other day bucket exists, the rest lexicographically ascending. -/
def specRemainingC5 (list : List FPoint) (tz : Int) (nowSec : Int) : List String :=
  let todayKey := dayKeyFromUtcWithOffset nowSec tz
  let ks := sortStrings (dedupFirst (usableKeys list tz))
  if (usableKeys list tz).any (fun k => k ≠ todayKey) then
    ks.filter (fun k => k ≠ todayKey)
  else ks

theorem chosenKeys_eq_spec (list : List FPoint) (tz : Int) (days : Nat) (nowSec : Int) :
    chosenKeys list tz days nowSec = (specRemainingC5 list tz nowSec).take days := by
  rw [chosenKeys, specRemainingC5, mapFst_buildByDay]
  have hmemks : ∀ k, k ∈ sortStrings (dedupFirst (usableKeys list tz)) ↔
      k ∈ usableKeys list tz := by
    intro k
    rw [sortStrings]
    constructor
    · intro h
      exact (mem_dedupFirst _ _).mp ((List.perm_insertionSort strLe _).mem_iff.mp h)
    · intro h
      exact (List.perm_insertionSort strLe _).mem_iff.mpr ((mem_dedupFirst _ _).mpr h)
  by_cases hany :
      (usableKeys list tz).any (fun k => k ≠ dayKeyFromUtcWithOffset nowSec tz) = true
  · have hne : ¬ ((sortStrings (dedupFirst (usableKeys list tz))).filter
        (fun k => k ≠ dayKeyFromUtcWithOffset nowSec tz)).isEmpty = true := by
      obtain ⟨x, hx, hxne⟩ := List.any_eq_true.mp hany
      intro hemp
      have hnil := List.isEmpty_iff.mp hemp
      have hxks := (hmemks x).mpr hx
      have := List.filter_eq_nil_iff.mp hnil x hxks
      simp only [decide_eq_true_eq] at this hxne
      exact this hxne
    rw [if_neg hne, if_pos hany]
  · have hal : ∀ x ∈ usableKeys list tz, x = dayKeyFromUtcWithOffset nowSec tz := by
      intro x hx
      by_contra hxne
      exact hany (List.any_eq_true.mpr ⟨x, hx, by simpa using hxne⟩)
    have hnil : (sortStrings (dedupFirst (usableKeys list tz))).filter
        (fun k => k ≠ dayKeyFromUtcWithOffset nowSec tz) = [] := by
      rw [List.filter_eq_nil_iff]
      intro a ha
      simp only [decide_eq_true_eq, Decidable.not_not]
      exact hal a ((hmemks a).mp ha)
    simp only [hany, if_false, hnil]
    rfl

/-- C5: the summaries come from the sorted remaining day keys in order
(truncated to `days`); "today" is the wall-clock instant's key under the
same offset; the pre-truncation keys are lexicographically ascending; and
when today's bucket exists it is excluded iff at least one other day bucket
exists. -/
theorem summarize_day_selection_matches_claim :
    ∀ (list : List FPoint) (tz : Int) (days : Nat) (now : Int),
      ((summarizeForecast list tz days now).map DaySummary.label =
        ((specRemainingC5 list tz now).take days).map labelFromKey) ∧
      List.Sorted strLe (specRemainingC5 list tz now) ∧
      (dayKeyFromUtcWithOffset now tz ∈ usableKeys list tz →
        (dayKeyFromUtcWithOffset now tz ∈ specRemainingC5 list tz now ↔
          ¬ ∃ k ∈ usableKeys list tz, k ≠ dayKeyFromUtcWithOffset now tz)) := by
  intro list tz days now
  refine ⟨?_, ?_, ?_⟩
  · rw [summarizeForecast, chosenKeys_eq_spec, List.map_map]
    rfl
  · have hsorted : List.Sorted strLe (sortStrings (dedupFirst (usableKeys list tz))) :=
      List.sorted_insertionSort strLe _
    rw [specRemainingC5]
    by_cases hany :
        (usableKeys list tz).any (fun k => k ≠ dayKeyFromUtcWithOffset now tz) = true
    · simp only [hany, if_true]
      exact List.Pairwise.filter _ hsorted
    · simp only [hany, if_false]
      exact hsorted
  · intro htoday
    rw [specRemainingC5]
    by_cases hany :
        (usableKeys list tz).any (fun k => k ≠ dayKeyFromUtcWithOffset now tz) = true
    · simp only [hany, if_true]
      constructor
      · intro hmem
        have := List.of_mem_filter hmem
        simp at this
      · intro hnone
        obtain ⟨x, hx, hxne⟩ := List.any_eq_true.mp hany
        simp only [decide_eq_true_eq] at hxne
        exact absurd ⟨x, hx, hxne⟩ hnone
    · simp only [hany, if_false]
      constructor
      · intro _
        rintro ⟨k, hk, hkne⟩
        exact hany (List.any_eq_true.mpr ⟨k, hk, by simpa using hkne⟩)
      · intro _
        rw [sortStrings]
        exact (List.perm_insertionSort strLe _).mem_iff.mpr
          ((mem_dedupFirst _ _).mpr htoday)

/-- Witness for C5: a single-day forecast observed from the same day — the
lone "today" bucket is kept. -/
theorem summarize_day_selection_witness :
    dayKeyFromUtcWithOffset 90000 0 ∈ usableKeys [c2pointUsable] 0 ∧
    (dayKeyFromUtcWithOffset 90000 0 ∈ specRemainingC5 [c2pointUsable] 0 90000 ↔
      ¬ ∃ k ∈ usableKeys [c2pointUsable] 0, k ≠ dayKeyFromUtcWithOffset 90000 0) :=
  ⟨by decide,
    (summarize_day_selection_matches_claim [c2pointUsable] 0 3 90000).2.2 (by decide)⟩

/-! ### `getWeather` branch computations (shared helpers) -/

/-- The candidate list `getWeather` feeds to the geocode loop. -/
def candidatesOf (place : String) : List String :=
  dedupFirst [normalizePlace place, maybeAppendUS (normalizePlace place),
    normalizePlace place ++ ", US"]

theorem getWeather_ambig_eq (env : Env) (place : String) (L : List GeoMatch)
    (log : List Request)
    (hk : env.apiKey.isSome = true)
    (hloop : geoLoop env (candidatesOf place) [] = (Except.ok (some L), log))
    (hlen : 1 < L.length)
    (hspec : seemsSpecificB (normalizePlace place) = false) :
    getWeather env place = (Except.ok (GWResult.fail (ambigMsg place L)), log) := by
  have hni : env.apiKey.isNone = false := by
    cases h : env.apiKey
    · rw [h] at hk; exact Bool.noConfusion hk
    · rfl
  rw [getWeather, hni]
  simp only [Bool.false_eq_true, if_false]
  rw [show dedupFirst [normalizePlace place, maybeAppendUS (normalizePlace place),
      normalizePlace place ++ ", US"] = candidatesOf place from rfl, hloop]
  have hcond : (decide (L.length > 1) && !seemsSpecificB (normalizePlace place)) = true := by
    rw [hspec]
    simp [hlen]
  simp only [hcond, if_true]

theorem getWeather_notfound_eq (env : Env) (place : String) (log : List Request)
    (hk : env.apiKey.isSome = true)
    (hloop : geoLoop env (candidatesOf place) [] = (Except.ok none, log)) :
    getWeather env place = (Except.ok (GWResult.fail (notFoundMsg place)), log) := by
  have hni : env.apiKey.isNone = false := by
    cases h : env.apiKey
    · rw [h] at hk; exact Bool.noConfusion hk
    · rfl
  rw [getWeather, hni]
  simp only [Bool.false_eq_true, if_false]
  rw [show dedupFirst [normalizePlace place, maybeAppendUS (normalizePlace place),
      normalizePlace place ++ ", US"] = candidatesOf place from rfl, hloop]

theorem getWeather_success_eq (env : Env) (place : String) (g : GeoMatch) (cur : CurResp)
    (fc : ForecastResp) (log : List Request)
    (hk : env.apiKey.isSome = true)
    (hloop : geoLoop env (candidatesOf place) [] = (Except.ok (some [g]), log))
    (hcur : env.currentW g.lat g.lon = Except.ok cur)
    (hfc : env.forecastW g.lat g.lon = Except.ok fc) :
    getWeather env place =
      (Except.ok (GWResult.success (locNameOf g)
        { temp := cur.main.bind CurMain.temp
          feels := cur.main.bind CurMain.feels_like
          humidity := cur.main.bind CurMain.humidity
          wind := cur.wind.bind CurWind.speed
          desc := cur.weather.head?.getD "unknown" }
        (summarizeForecast (fc.list.getD []) (cur.timezone.getD 0) 3 env.nowSec)),
       log ++ [Request.current g.lat g.lon] ++ [Request.forecast g.lat g.lon]) := by
  have hni : env.apiKey.isNone = false := by
    cases h : env.apiKey
    · rw [h] at hk; exact Bool.noConfusion hk
    · rfl
  rw [getWeather, hni]
  simp only [Bool.false_eq_true, if_false]
  rw [show dedupFirst [normalizePlace place, maybeAppendUS (normalizePlace place),
      normalizePlace place ++ ", US"] = candidatesOf place from rfl, hloop]
  have hcond : (decide (([g] : List GeoMatch).length > 1) &&
      !seemsSpecificB (normalizePlace place)) = false := by
    simp
  simp only [hcond, Bool.false_eq_true, if_false]
  have hloc : (if ([g] : List GeoMatch).length > 1
      then (pickBestGeoMatch (normalizePlace place) [g]).getD dummyGeo
      else ([g] : List GeoMatch).headD dummyGeo) = g := by
    simp
  rw [hloc, hcur, hfc]

/-! ### Claim C3 -/

/-- C3: with several deduplicated matches and a non-specific normalized
input, `getWeather` returns (not throws) `ok = false` with the
disambiguation message: the at-most-three numbered option lines (rank,
name, optional state, country) joined by newlines, followed by the
suggestion to add state/country. -/
theorem getWeather_disambiguation_matches_claim :
    ∀ (env : Env) (place : String) (L : List GeoMatch) (log : List Request),
      env.apiKey.isSome = true →
      geoLoop env (candidatesOf place) [] = (Except.ok (some L), log) →
      1 < L.length →
      seemsSpecificB (normalizePlace place) = false →
      getWeather env place =
        (Except.ok (GWResult.fail
          ("I found multiple matches for **" ++ place ++ "**:\n" ++
            String.intercalate "\n"
              (((L.take 3).enum).map (fun p =>
                "**" ++ toString (p.1 + 1) ++ ".** " ++ p.2.name ++
                (if p.2.state ≠ "" then ", " ++ p.2.state else "") ++ ", " ++
                p.2.country)) ++
            "\n\nTry adding state/country (ex: \"Houston, TX, US\" or \"Paris, FR\").")),
         log) ∧
      (L.take 3).length = min 3 L.length := by
  intro env place L log hk hloop hlen hspec
  refine ⟨?_, by rw [List.length_take]⟩
  rw [getWeather_ambig_eq env place L log hk hloop hlen hspec]
  rfl

def gSpring1 : GeoMatch :=
  { name := "Springfield", state := "Illinois", country := "US", lat := 1, lon := 2 }

def gSpring2 : GeoMatch :=
  { name := "Springfield", state := "", country := "US", lat := 3, lon := 4 }

def envAmbig : Env :=
  { apiKey := some "k"
    geocode := fun q => if q = "Springfield" then Except.ok [gSpring1, gSpring2] else Except.ok []
    currentW := fun _ _ => Except.ok { timezone := none, main := none, wind := none, weather := [] }
    forecastW := fun _ _ => Except.ok { city_timezone := none, list := some [] }
    nowSec := 0 }

/-- Witness for C3 at a concrete two-match environment. -/
theorem getWeather_disambiguation_witness :
    getWeather envAmbig "Springfield" =
      (Except.ok (GWResult.fail
        ("I found multiple matches for **Springfield**:\n" ++
          String.intercalate "\n"
            ((([gSpring1, gSpring2].take 3).enum).map (fun p =>
              "**" ++ toString (p.1 + 1) ++ ".** " ++ p.2.name ++
              (if p.2.state ≠ "" then ", " ++ p.2.state else "") ++ ", " ++
              p.2.country)) ++
          "\n\nTry adding state/country (ex: \"Houston, TX, US\" or \"Paris, FR\").")),
       [Request.geocode "Springfield"]) ∧
    ([gSpring1, gSpring2].take 3).length = min 3 [gSpring1, gSpring2].length :=
  getWeather_disambiguation_matches_claim envAmbig "Springfield" [gSpring1, gSpring2]
    [Request.geocode "Springfield"] (by decide) (by rfl) (by decide) (by decide)

/-! ### Claim C4 -/

/-- C4: the missing credential throws (an `error` result) with no network
request attempted, while the NotFound and AmbiguousLocation outcomes are
returned as `ok = false` values, not thrown. -/
theorem getWeather_fatal_vs_business :
    (∀ (env : Env) (place : String), env.apiKey = none →
      getWeather env place = (Except.error missingKeyMsg, [])) ∧
    (∀ (env : Env) (place : String) (log : List Request),
      env.apiKey.isSome = true →
      geoLoop env (candidatesOf place) [] = (Except.ok none, log) →
      getWeather env place = (Except.ok (GWResult.fail (notFoundMsg place)), log)) ∧
    (∀ (env : Env) (place : String) (L : List GeoMatch) (log : List Request),
      env.apiKey.isSome = true →
      geoLoop env (candidatesOf place) [] = (Except.ok (some L), log) →
      1 < L.length →
      seemsSpecificB (normalizePlace place) = false →
      ∃ msg, getWeather env place = (Except.ok (GWResult.fail msg), log)) := by
  refine ⟨?_, ?_, ?_⟩
  · intro env place hkey
    rw [getWeather, hkey]
    rfl
  · intro env place log hk hloop
    exact getWeather_notfound_eq env place log hk hloop
  · intro env place L log hk hloop hlen hspec
    exact ⟨ambigMsg place L, getWeather_ambig_eq env place L log hk hloop hlen hspec⟩

def envNoKey : Env :=
  { apiKey := none
    geocode := fun _ => Except.ok []
    currentW := fun _ _ => Except.ok { timezone := none, main := none, wind := none, weather := [] }
    forecastW := fun _ _ => Except.ok { city_timezone := none, list := some [] }
    nowSec := 0 }

def envEmptyGeo : Env :=
  { envNoKey with apiKey := some "k" }

/-- Witness for C4: the three branches at concrete environments. -/
theorem getWeather_fatal_vs_business_witness :
    getWeather envNoKey "Rome" = (Except.error missingKeyMsg, []) ∧
    getWeather envEmptyGeo "Rome" =
      (Except.ok (GWResult.fail (notFoundMsg "Rome")),
        [Request.geocode "Rome", Request.geocode "Rome, US"]) ∧
    (∃ msg, getWeather envAmbig "Springfield" =
      (Except.ok (GWResult.fail msg), [Request.geocode "Springfield"])) :=
  ⟨getWeather_fatal_vs_business.1 envNoKey "Rome" rfl,
    getWeather_fatal_vs_business.2.1 envEmptyGeo "Rome"
      [Request.geocode "Rome", Request.geocode "Rome, US"] (by decide) (by rfl),
    getWeather_fatal_vs_business.2.2 envAmbig "Springfield" [gSpring1, gSpring2]
      [Request.geocode "Springfield"] (by decide) (by rfl) (by decide) (by decide)⟩

/-! ### Claim C10 -/

theorem geoLoop_geocode_congr (env env' : Env) (hgc : env'.geocode = env.geocode) :
    ∀ (qs : List String) (log : List Request), geoLoop env' qs log = geoLoop env qs log := by
  intro qs
  induction qs with
  | nil => intro log; rfl
  | cons q rest ih =>
    intro log
    simp only [geoLoop, hgc]
    cases env.geocode q with
    | error e => rfl
    | ok arr =>
      by_cases h : arr.length > 0
      · simp only [h, if_true]
      · simp only [h, if_false]
        exact ih _

/-- C10: when the current-conditions response has no `timezone`, the
forecast is bucketed with offset 0, and the result is unchanged under any
rewriting of the forecast response's own `city.timezone` field — the
module never consults it. -/
theorem getWeather_tz_fallback :
    ∀ (env : Env) (place : String) (g : GeoMatch) (cur : CurResp) (fc : ForecastResp)
      (log : List Request),
      env.apiKey.isSome = true →
      geoLoop env (candidatesOf place) [] = (Except.ok (some [g]), log) →
      env.currentW g.lat g.lon = Except.ok cur →
      cur.timezone = none →
      env.forecastW g.lat g.lon = Except.ok fc →
      getWeather env place =
        (Except.ok (GWResult.success (locNameOf g)
          { temp := cur.main.bind CurMain.temp
            feels := cur.main.bind CurMain.feels_like
            humidity := cur.main.bind CurMain.humidity
            wind := cur.wind.bind CurWind.speed
            desc := cur.weather.head?.getD "unknown" }
          (summarizeForecast (fc.list.getD []) 0 3 env.nowSec)),
         log ++ [Request.current g.lat g.lon] ++ [Request.forecast g.lat g.lon]) ∧
      (∀ tzAlt : Option Int,
        getWeather
          { env with forecastW := fun la lo =>
              (env.forecastW la lo).map (fun r => { r with city_timezone := tzAlt }) }
          place = getWeather env place) := by
  intro env place g cur fc log hk hloop hcur htz hfc
  have hmain := getWeather_success_eq env place g cur fc log hk hloop hcur hfc
  rw [htz] at hmain
  refine ⟨hmain, ?_⟩
  intro tzAlt
  set env' : Env :=
    { env with forecastW := fun la lo =>
        (env.forecastW la lo).map (fun r => { r with city_timezone := tzAlt }) } with henv'
  have hloop' : geoLoop env' (candidatesOf place) [] = (Except.ok (some [g]), log) := by
    rw [geoLoop_geocode_congr env env' rfl]
    exact hloop
  have hfc' : env'.forecastW g.lat g.lon =
      Except.ok { fc with city_timezone := tzAlt } := by
    show (env.forecastW g.lat g.lon).map _ = _
    rw [hfc]
    rfl
  have h1 := getWeather_success_eq env' place g cur { fc with city_timezone := tzAlt } log
    hk hloop' hcur hfc'
  rw [h1, hmain]
  simp [htz]

def gRome : GeoMatch := { name := "Rome", state := "", country := "IT", lat := 41, lon := 12 }

def envTz : Env :=
  { apiKey := some "k"
    geocode := fun q => if q = "Rome" then Except.ok [gRome] else Except.ok []
    currentW := fun _ _ => Except.ok { timezone := none, main := none, wind := none, weather := [] }
    forecastW := fun _ _ => Except.ok { city_timezone := some 3600, list := some [c2pointUsable] }
    nowSec := 0 }

/-- Witness for C10 at a concrete environment whose current-conditions
response carries no offset. -/
theorem getWeather_tz_fallback_witness :
    getWeather envTz "Rome" =
      (Except.ok (GWResult.success (locNameOf gRome)
        { temp := none, feels := none, humidity := none, wind := none, desc := "unknown" }
        (summarizeForecast [c2pointUsable] 0 3 0)),
       [Request.geocode "Rome", Request.current 41 12, Request.forecast 41 12]) ∧
    getWeather
        { envTz with forecastW := fun la lo =>
            (envTz.forecastW la lo).map (fun r => { r with city_timezone := some (-7200) }) }
        "Rome" = getWeather envTz "Rome" := by
  have h := getWeather_tz_fallback envTz "Rome" gRome
    { timezone := none, main := none, wind := none, weather := [] }
    { city_timezone := some 3600, list := some [c2pointUsable] }
    [Request.geocode "Rome"] (by decide) (by rfl) (by rfl) (by rfl) (by rfl)
  exact ⟨h.1, h.2 (some (-7200))⟩

/-! ### Claim C6 — structure lemmas for `normalizePlace` -/

/-- One segment of the canonical decomposition: trimmed and
whitespace-collapsed. -/
def cleanSeg (l : List Char) : List Char := collapseWs (trimJS l)

/-- Re-join comma-free segments with the canonical `", "` separator. -/
def joinSegs : List (List Char) → List Char
  | [] => []
  | [s] => s
  | s :: rest => s ++ ',' :: ' ' :: joinSegs rest

/-- The canonical form `normList` computes: each comma-separated segment
trimmed and collapsed, glued with `", "`. -/
def canonList (l : List Char) : List Char := joinSegs ((splitComma l).map cleanSeg)

/-- Whether a list starts with a `\s` character. -/
def headSpace : List Char → Bool
  | [] => false
  | c :: _ => jsSpace c

theorem jsSpace_comma : jsSpace ',' = false := by decide

theorem jsSpace_blank : jsSpace ' ' = true := by decide

theorem dropLead_append_comma : ∀ (a b : List Char), dropLead (a ++ ',' :: b) = dropLead a ++ ',' :: b := by
  intro a b
  induction a with
  | nil => simp [dropLead, List.dropWhile, jsSpace_comma]
  | cons c a' ih =>
    cases hc : jsSpace c with
    | true => simpa [dropLead, List.dropWhile, hc] using ih
    | false => simp [dropLead, List.dropWhile, hc]

theorem dropTrail_cons_of_ne (c : Char) (x : List Char) (h : dropTrail x ≠ []) :
    dropTrail (c :: x) = c :: dropTrail x := by
  rw [dropTrail]
  cases h' : dropTrail x with
  | nil => exact absurd h' h
  | cons r rs => rfl

theorem dropTrail_cons_nsp (c : Char) (x : List Char) (h : jsSpace c = false) :
    dropTrail (c :: x) = c :: dropTrail x := by
  rw [dropTrail]
  cases h' : dropTrail x with
  | nil => simp [h]
  | cons r rs => rfl

theorem dropTrail_append_comma : ∀ (a b : List Char),
    dropTrail (a ++ ',' :: b) = a ++ ',' :: dropTrail b := by
  intro a b
  induction a with
  | nil =>
    simp only [List.nil_append]
    exact dropTrail_cons_nsp ',' b jsSpace_comma
  | cons c a' ih =>
    show dropTrail (c :: (a' ++ ',' :: b)) = _
    rw [dropTrail_cons_of_ne c _ (by rw [ih]; simp), ih]
    rfl

theorem dropTrail_idem : ∀ l : List Char, dropTrail (dropTrail l) = dropTrail l := by
  intro l
  induction l with
  | nil => rfl
  | cons c cs ih =>
    rw [dropTrail]
    cases h : dropTrail cs with
    | nil =>
      simp only [h]
      cases hc : jsSpace c with
      | true => simp [hc, dropTrail]
      | false =>
        simp only [hc, Bool.false_eq_true, if_false]
        simp [dropTrail, hc]
    | cons r rs =>
      simp only [h]
      rw [h] at ih
      rw [dropTrail_cons_of_ne c _ (by rw [ih]; simp), ih]

theorem dropTrail_eq_nil_iff : ∀ l : List Char, dropTrail l = [] ↔ ∀ c ∈ l, jsSpace c = true := by
  intro l
  induction l with
  | nil => simp [dropTrail]
  | cons c cs ih =>
    rw [dropTrail]
    cases h : dropTrail cs with
    | nil =>
      simp only [h]
      have hall := ih.mp h
      cases hc : jsSpace c with
      | true =>
        simp only [hc, if_true]
        constructor
        · intro _ x hx
          rcases List.mem_cons.mp hx with hx | hx
          · rw [hx]; exact hc
          · exact hall x hx
        · intro _; trivial
      | false =>
        simp only [hc, Bool.false_eq_true, if_false]
        constructor
        · intro hcl; exact absurd hcl (by simp)
        · intro hall2
          exact absurd (hall2 c (List.mem_cons_self _ _)) (by simp [hc])
    | cons r rs =>
      simp only [h]
      have : ¬ (∀ x ∈ cs, jsSpace x = true) := by
        intro hall
        rw [ih.mpr hall] at h
        exact List.noConfusion h
      simp only [List.cons_ne_nil, false_iff]
      intro hall
      exact this (fun x hx => hall x (List.mem_cons_of_mem _ hx))

theorem dropLead_eq_nil_iff (l : List Char) : dropLead l = [] ↔ ∀ c ∈ l, jsSpace c = true := by
  simp [dropLead, List.dropWhile_eq_nil_iff]

theorem dropLead_dropTrail_comm : ∀ l : List Char,
    dropLead (dropTrail l) = dropTrail (dropLead l) := by
  intro l
  induction l with
  | nil => rfl
  | cons c cs ih =>
    cases hc : jsSpace c with
    | true =>
      have h1 : dropLead (c :: cs) = dropLead cs := by simp [dropLead, List.dropWhile, hc]
      rw [h1, ← ih]
      rw [dropTrail]
      cases h : dropTrail cs with
      | nil => simp [h, hc, dropLead]
      | cons r rs => simp [h, dropLead, List.dropWhile, hc]
    | false =>
      have h1 : dropLead (c :: cs) = c :: cs := by simp [dropLead, List.dropWhile, hc]
      rw [h1, dropTrail_cons_nsp c cs hc]
      simp [dropLead, List.dropWhile, hc]

theorem mem_dropLead {c : Char} {l : List Char} (h : c ∈ dropLead l) : c ∈ l :=
  (List.dropWhile_sublist jsSpace).mem h

theorem mem_dropTrail : ∀ {l : List Char} {c : Char}, c ∈ dropTrail l → c ∈ l := by
  intro l
  induction l with
  | nil => intro c h; simp [dropTrail] at h
  | cons d ds ih =>
    intro c h
    rw [dropTrail] at h
    revert h
    cases h' : dropTrail ds with
    | nil =>
      cases hd : jsSpace d with
      | true => intro h; simp at h
      | false =>
        intro h
        simp only [hd, Bool.false_eq_true, if_false, List.mem_singleton] at h
        exact h ▸ List.mem_cons_self _ _
    | cons r rs =>
      intro h
      rcases List.mem_cons.mp h with h | h
      · exact h ▸ List.mem_cons_self _ _
      · exact List.mem_cons_of_mem _ (ih (by rw [h']; exact h))

theorem collapseWs_cons_nsp (c : Char) (cs : List Char) (hc : jsSpace c = false) :
    collapseWs (c :: cs) = c :: collapseWs cs := by
  rw [collapseWs]
  simp [hc]

theorem collapseWs_cons_sp (c : Char) (cs : List Char) (hc : jsSpace c = true) :
    collapseWs (c :: cs) =
      if headSpace (collapseWs cs) = true then collapseWs cs else ' ' :: collapseWs cs := by
  rw [collapseWs]
  simp only [hc, if_true]
  cases h : collapseWs cs with
  | nil => simp [headSpace]
  | cons r rs => simp [headSpace]

theorem collapseWs_ne_nil : ∀ l : List Char, l ≠ [] → collapseWs l ≠ [] := by
  intro l h
  cases l with
  | nil => exact absurd rfl h
  | cons c cs =>
    cases hc : jsSpace c with
    | false => rw [collapseWs_cons_nsp c cs hc]; simp
    | true =>
      rw [collapseWs_cons_sp c cs hc]
      by_cases hh : headSpace (collapseWs cs) = true
      · rw [if_pos hh]
        cases h' : collapseWs cs with
        | nil => rw [h'] at hh; simp [headSpace] at hh
        | cons r rs => simp
      · rw [if_neg hh]; simp

theorem headSpace_collapseWs : ∀ l : List Char, headSpace (collapseWs l) = headSpace l := by
  intro l
  cases l with
  | nil => rfl
  | cons c cs =>
    cases hc : jsSpace c with
    | false => rw [collapseWs_cons_nsp c cs hc]; simp [headSpace, hc]
    | true =>
      rw [collapseWs_cons_sp c cs hc]
      by_cases hh : headSpace (collapseWs cs) = true
      · rw [if_pos hh, hh]; simp [headSpace, hc]
      · rw [if_neg hh]; simp [headSpace, hc, jsSpace_blank]

theorem headSpace_append (x y : List Char) (hx : x ≠ []) :
    headSpace (x ++ y) = headSpace x := by
  cases x with
  | nil => exact absurd rfl hx
  | cons c cs => rfl

theorem collapseWs_append_sep (z : List Char) (hz : headSpace z = false) :
    ∀ w : List Char, dropTrail w = w →
      collapseWs (w ++ ',' :: ' ' :: z) = collapseWs w ++ ',' :: ' ' :: collapseWs z := by
  have hbase : collapseWs (',' :: ' ' :: z) = ',' :: ' ' :: collapseWs z := by
    rw [collapseWs_cons_nsp ',' _ jsSpace_comma, collapseWs_cons_sp ' ' _ jsSpace_blank]
    rw [headSpace_collapseWs, hz]
    simp
  intro w
  induction w with
  | nil =>
    intro _
    simpa using hbase
  | cons c w' ih =>
    intro hw
    rw [dropTrail] at hw
    cases h' : dropTrail w' with
    | nil =>
      rw [h'] at hw
      cases hc : jsSpace c with
      | true => rw [hc] at hw; simp at hw
      | false =>
        rw [hc] at hw
        simp only [Bool.false_eq_true, if_false] at hw
        injection hw with _ h2
        have hw' : w' = [] := h2.symm
        subst hw'
        show collapseWs (c :: ',' :: ' ' :: z) = collapseWs [c] ++ ',' :: ' ' :: collapseWs z
        rw [collapseWs_cons_nsp c _ hc, hbase, collapseWs_cons_nsp c [] hc]
        rfl
    | cons r rs =>
      rw [h'] at hw
      injection hw with _ h2
      have hw'' : w' = r :: rs := h2.symm
      have hwne : w' ≠ [] := by rw [hw'']; simp
      have hdw : dropTrail w' = w' := by rw [h', hw'']
      have hih := ih hdw
      cases hc : jsSpace c with
      | false =>
        rw [show (c :: w') ++ ',' :: ' ' :: z = c :: (w' ++ ',' :: ' ' :: z) from rfl,
          collapseWs_cons_nsp c _ hc, hih, collapseWs_cons_nsp c w' hc]
        rfl
      | true =>
        have hkey : headSpace (collapseWs w' ++ ',' :: ' ' :: collapseWs z) = headSpace w' := by
          rw [headSpace_append _ _ (collapseWs_ne_nil w' hwne), headSpace_collapseWs]
        rw [show (c :: w') ++ ',' :: ' ' :: z = c :: (w' ++ ',' :: ' ' :: z) from rfl,
          collapseWs_cons_sp c _ hc, hih, hkey, collapseWs_cons_sp c w' hc,
          headSpace_collapseWs w']
        by_cases hh : headSpace w' = true
        · rw [if_pos hh, if_pos hh]
        · rw [if_neg hh, if_neg hh]
          rfl

theorem collapseWs_idem : ∀ l : List Char, collapseWs (collapseWs l) = collapseWs l := by
  intro l
  induction l with
  | nil => rfl
  | cons c cs ih =>
    cases hc : jsSpace c with
    | false =>
      rw [collapseWs_cons_nsp c cs hc, collapseWs_cons_nsp c _ hc, ih]
    | true =>
      rw [collapseWs_cons_sp c cs hc]
      by_cases hh : headSpace (collapseWs cs) = true
      · rw [if_pos hh, ih]
      · rw [if_neg hh, collapseWs_cons_sp ' ' _ jsSpace_blank, ih]
        rw [if_neg hh]

theorem dropTrail_collapseWs : ∀ l : List Char, dropTrail l = l →
    dropTrail (collapseWs l) = collapseWs l := by
  intro l
  induction l with
  | nil => intro _; rfl
  | cons c cs ih =>
    intro hw
    rw [dropTrail] at hw
    cases h' : dropTrail cs with
    | nil =>
      rw [h'] at hw
      cases hc : jsSpace c with
      | true => rw [hc] at hw; simp at hw
      | false =>
        rw [hc] at hw
        simp only [Bool.false_eq_true, if_false] at hw
        injection hw with _ h2
        have hw' : cs = [] := h2.symm
        subst hw'
        rw [collapseWs_cons_nsp c [] hc]
        show dropTrail [c] = [c]
        rw [dropTrail]
        simp [hc, dropTrail]
    | cons r rs =>
      rw [h'] at hw
      injection hw with _ h2
      have hw'' : cs = r :: rs := h2.symm
      have hwne : cs ≠ [] := by rw [hw'']; simp
      have hdw : dropTrail cs = cs := by rw [h', hw'']
      have hih := ih hdw
      cases hc : jsSpace c with
      | false =>
        rw [collapseWs_cons_nsp c cs hc,
          dropTrail_cons_of_ne c _ (by rw [hih]; exact collapseWs_ne_nil cs hwne), hih]
      | true =>
        rw [collapseWs_cons_sp c cs hc]
        by_cases hh : headSpace (collapseWs cs) = true
        · rw [if_pos hh]
          exact hih
        · rw [if_neg hh]
          rw [dropTrail_cons_of_ne ' ' _ (by rw [hih]; exact collapseWs_ne_nil cs hwne), hih]

theorem mem_collapseWs : ∀ {l : List Char} {c : Char}, c ∈ collapseWs l → c ∈ l ∨ c = ' ' := by
  intro l
  induction l with
  | nil => intro c h; simp [collapseWs] at h
  | cons d ds ih =>
    intro c h
    cases hd : jsSpace d with
    | false =>
      rw [collapseWs_cons_nsp d ds hd] at h
      rcases List.mem_cons.mp h with h | h
      · exact Or.inl (h ▸ List.mem_cons_self _ _)
      · rcases ih h with h | h
        · exact Or.inl (List.mem_cons_of_mem _ h)
        · exact Or.inr h
    | true =>
      rw [collapseWs_cons_sp d ds hd] at h
      by_cases hh : headSpace (collapseWs ds) = true
      · rw [if_pos hh] at h
        rcases ih h with h | h
        · exact Or.inl (List.mem_cons_of_mem _ h)
        · exact Or.inr h
      · rw [if_neg hh] at h
        rcases List.mem_cons.mp h with h | h
        · exact Or.inr h
        · rcases ih h with h | h
          · exact Or.inl (List.mem_cons_of_mem _ h)
          · exact Or.inr h

theorem headSpace_dropLead (l : List Char) : headSpace (dropLead l) = false := by
  induction l with
  | nil => rfl
  | cons c cs ih =>
    cases hc : jsSpace c with
    | true => simpa [dropLead, List.dropWhile, hc] using ih
    | false => simp [dropLead, List.dropWhile, hc, headSpace]

theorem headSpace_dropTrail (l : List Char) (h : headSpace l = false) :
    headSpace (dropTrail l) = false := by
  cases l with
  | nil => rfl
  | cons c cs =>
    rw [dropTrail]
    cases h' : dropTrail cs with
    | nil =>
      have hc : jsSpace c = false := h
      simp [hc, headSpace]
    | cons r rs => exact h

theorem replCommas_cons_comma (cs : List Char) :
    replCommas (',' :: cs) = ',' :: ' ' :: (replCommas cs).dropWhile jsSpace := by
  rw [replCommas]
  simp

theorem replCommas_cons_sp_comma (c : Char) (cs : List Char) (hc : jsSpace c = true)
    (h : (cs.dropWhile jsSpace).head? = some ',') : replCommas (c :: cs) = replCommas cs := by
  have hcc : ¬ (c = ',') := by
    intro he
    rw [he] at hc
    rw [jsSpace_comma] at hc
    exact Bool.noConfusion hc
  rw [replCommas]
  simp [hcc, hc, h]

theorem replCommas_cons_sp_nocomma (c : Char) (cs : List Char) (hc : jsSpace c = true)
    (h : ¬ ((cs.dropWhile jsSpace).head? = some ',')) :
    replCommas (c :: cs) = c :: replCommas cs := by
  have hcc : ¬ (c = ',') := by
    intro he
    rw [he] at hc
    rw [jsSpace_comma] at hc
    exact Bool.noConfusion hc
  rw [replCommas]
  simp [hcc, hc, h]

theorem replCommas_cons_nsp (c : Char) (cs : List Char) (hc : jsSpace c = false)
    (hcc : ¬ (c = ',')) : replCommas (c :: cs) = c :: replCommas cs := by
  rw [replCommas]
  simp [hcc, hc]

theorem replCommas_no_comma : ∀ l : List Char, ',' ∉ l → replCommas l = l := by
  intro l
  induction l with
  | nil => intro _; rfl
  | cons c cs ih =>
    intro h
    have hcc : ¬ (c = ',') := fun he => h (he ▸ List.mem_cons_self _ _)
    have hcs : ',' ∉ cs := fun hm => h (List.mem_cons_of_mem _ hm)
    cases hc : jsSpace c with
    | false => rw [replCommas_cons_nsp c cs hc hcc, ih hcs]
    | true =>
      have hnc : ¬ ((cs.dropWhile jsSpace).head? = some ',') := by
        intro hh
        have hmem : ',' ∈ cs.dropWhile jsSpace := by
          cases hdw : cs.dropWhile jsSpace with
          | nil => rw [hdw] at hh; exact Option.noConfusion hh
          | cons x xs =>
            rw [hdw] at hh
            injection hh with hx
            rw [hx]
            exact List.mem_cons_self _ _
        exact hcs ((List.dropWhile_sublist jsSpace).mem hmem)
      rw [replCommas_cons_sp_nocomma c cs hc hnc, ih hcs]

theorem headSpace_replCommas (l : List Char) (h : headSpace l = false) :
    headSpace (replCommas l) = false := by
  cases l with
  | nil => rfl
  | cons c cs =>
    by_cases hcc : c = ','
    · subst hcc
      rw [replCommas_cons_comma]
      exact jsSpace_comma
    · have hc : jsSpace c = false := h
      rw [replCommas_cons_nsp c cs hc hcc]
      exact h

theorem dropLead_replCommas : ∀ v : List Char,
    dropLead (replCommas v) = replCommas (dropLead v) := by
  intro v
  induction v with
  | nil => rfl
  | cons c cs ih =>
    by_cases hcc : c = ','
    · subst hcc
      rw [replCommas_cons_comma]
      have h1 : dropLead (',' :: ' ' :: (replCommas cs).dropWhile jsSpace) =
          ',' :: ' ' :: (replCommas cs).dropWhile jsSpace := by
        simp [dropLead, List.dropWhile, jsSpace_comma]
      rw [h1]
      have h2 : dropLead (',' :: cs) = ',' :: cs := by
        simp [dropLead, List.dropWhile, jsSpace_comma]
      rw [h2, replCommas_cons_comma]
    · cases hc : jsSpace c with
      | true =>
        have hdl : dropLead (c :: cs) = dropLead cs := by
          simp [dropLead, List.dropWhile, hc]
        by_cases hcm : (cs.dropWhile jsSpace).head? = some ','
        · rw [replCommas_cons_sp_comma c cs hc hcm, hdl, ih]
        · rw [replCommas_cons_sp_nocomma c cs hc hcm, hdl, ← ih]
          simp [dropLead, List.dropWhile, hc]
      | false =>
        have hdl : dropLead (c :: cs) = c :: cs := by
          simp [dropLead, List.dropWhile, hc]
        rw [replCommas_cons_nsp c cs hc hcc, hdl, replCommas_cons_nsp c cs hc hcc]
        simp [dropLead, List.dropWhile, hc]

theorem mem_replCommas : ∀ {l : List Char} {c : Char}, c ∈ replCommas l → c ∈ l ∨ c = ' ' := by
  intro l
  induction l with
  | nil => intro c h; simp [replCommas] at h
  | cons d ds ih =>
    intro c h
    by_cases hdc : d = ','
    · subst hdc
      rw [replCommas_cons_comma] at h
      rcases List.mem_cons.mp h with h | h
      · exact Or.inl (h ▸ List.mem_cons_self _ _)
      · rcases List.mem_cons.mp h with h | h
        · exact Or.inr h
        · rcases ih ((List.dropWhile_sublist jsSpace).mem h) with h | h
          · exact Or.inl (List.mem_cons_of_mem _ h)
          · exact Or.inr h
    · cases hd : jsSpace d with
      | false =>
        rw [replCommas_cons_nsp d ds hd hdc] at h
        rcases List.mem_cons.mp h with h | h
        · exact Or.inl (h ▸ List.mem_cons_self _ _)
        · rcases ih h with h | h
          · exact Or.inl (List.mem_cons_of_mem _ h)
          · exact Or.inr h
      | true =>
        by_cases hcm : (ds.dropWhile jsSpace).head? = some ','
        · rw [replCommas_cons_sp_comma d ds hd hcm] at h
          rcases ih h with h | h
          · exact Or.inl (List.mem_cons_of_mem _ h)
          · exact Or.inr h
        · rw [replCommas_cons_sp_nocomma d ds hd hcm] at h
          rcases List.mem_cons.mp h with h | h
          · exact Or.inl (h ▸ List.mem_cons_self _ _)
          · rcases ih h with h | h
            · exact Or.inl (List.mem_cons_of_mem _ h)
            · exact Or.inr h

theorem replCommas_append_comma : ∀ (u : List Char), ',' ∉ u → ∀ v : List Char,
    replCommas (u ++ ',' :: v) = dropTrail u ++ ',' :: ' ' :: replCommas (dropLead v) := by
  intro u
  induction u with
  | nil =>
    intro _ v
    rw [List.nil_append, replCommas_cons_comma]
    show _ = [] ++ ',' :: ' ' :: replCommas (dropLead v)
    rw [List.nil_append]
    have : (replCommas v).dropWhile jsSpace = dropLead (replCommas v) := rfl
    rw [this, dropLead_replCommas]
  | cons c u' ih =>
    intro hu v
    have hcc : ¬ (c = ',') := fun he => hu (he ▸ List.mem_cons_self _ _)
    have hu' : ',' ∉ u' := fun hm => hu (List.mem_cons_of_mem _ hm)
    have hih := ih hu' v
    cases hc : jsSpace c with
    | false =>
      show replCommas (c :: (u' ++ ',' :: v)) = _
      rw [replCommas_cons_nsp c _ hc hcc, hih, dropTrail_cons_nsp c u' hc]
      rfl
    | true =>
      have hdw : List.dropWhile jsSpace (u' ++ ',' :: v) = dropLead u' ++ ',' :: v :=
        dropLead_append_comma u' v
      by_cases hnil : dropLead u' = []
      · have hcm : ((u' ++ ',' :: v).dropWhile jsSpace).head? = some ',' := by
          rw [hdw, hnil]
          rfl
        have hallsp : ∀ x ∈ u', jsSpace x = true := (dropLead_eq_nil_iff u').mp hnil
        have htr : dropTrail u' = [] := (dropTrail_eq_nil_iff u').mpr hallsp
        have htrc : dropTrail (c :: u') = [] := by
          refine (dropTrail_eq_nil_iff _).mpr ?_
          intro x hx
          rcases List.mem_cons.mp hx with hx | hx
          · rw [hx]; exact hc
          · exact hallsp x hx
        show replCommas (c :: (u' ++ ',' :: v)) = _
        rw [replCommas_cons_sp_comma c _ hc hcm, hih, htr, htrc]
      · have hne : dropTrail u' ≠ [] := by
          intro htr
          exact hnil ((dropLead_eq_nil_iff u').mpr ((dropTrail_eq_nil_iff u').mp htr))
        cases hdl : dropLead u' with
        | nil => exact absurd hdl hnil
        | cons d ds =>
          have hdne : ¬ (d = ',') := by
            intro he
            refine hu' ?_
            rw [← he]
            exact mem_dropLead (hdl ▸ List.mem_cons_self d ds)
          have hcm : ¬ (((u' ++ ',' :: v).dropWhile jsSpace).head? = some ',') := by
            rw [hdw, hdl]
            intro hh
            injection hh with hx
            exact hdne hx
          show replCommas (c :: (u' ++ ',' :: v)) = _
          rw [replCommas_cons_sp_nocomma c _ hc hcm, hih, dropTrail_cons_of_ne c u' hne]
          rfl

theorem splitComma_ne_nil : ∀ l : List Char, splitComma l ≠ [] := by
  intro l
  cases l with
  | nil => simp [splitComma]
  | cons c cs =>
    rw [splitComma]
    by_cases hc : c = ','
    · simp [hc]
    · simp only [hc, if_false]
      cases h : splitComma cs with
      | nil => simp
      | cons s rest => simp

theorem splitComma_pieces_no_comma : ∀ (l : List Char) (s : List Char),
    s ∈ splitComma l → ',' ∉ s := by
  intro l
  induction l with
  | nil =>
    intro s h
    simp [splitComma] at h
    simp [h]
  | cons c cs ih =>
    intro s h
    rw [splitComma] at h
    by_cases hc : c = ','
    · simp only [hc, if_true] at h
      rcases List.mem_cons.mp h with h | h
      · simp [h]
      · exact ih s h
    · simp only [hc, if_false] at h
      cases hsp : splitComma cs with
      | nil => exact absurd hsp (splitComma_ne_nil cs)
      | cons s0 rest =>
        rw [hsp] at h
        rcases List.mem_cons.mp h with h | h
        · subst h
          intro hm
          rcases List.mem_cons.mp hm with hm | hm
          · exact hc hm.symm
          · exact ih s0 (hsp ▸ List.mem_cons_self _ _) hm
        · exact ih s (hsp ▸ List.mem_cons_of_mem _ h)

theorem splitComma_append_comma : ∀ (a : List Char), ',' ∉ a → ∀ b : List Char,
    splitComma (a ++ ',' :: b) = a :: splitComma b := by
  intro a
  induction a with
  | nil =>
    intro _ b
    rw [List.nil_append, splitComma]
    simp
  | cons c a' ih =>
    intro ha b
    have hcc : ¬ (c = ',') := fun he => ha (he ▸ List.mem_cons_self _ _)
    have ha' : ',' ∉ a' := fun hm => ha (List.mem_cons_of_mem _ hm)
    show splitComma (c :: (a' ++ ',' :: b)) = _
    rw [splitComma]
    simp only [hcc, if_false]
    rw [ih ha' b]

theorem splitComma_no_comma : ∀ l : List Char, ',' ∉ l → splitComma l = [l] := by
  intro l
  induction l with
  | nil => intro _; rfl
  | cons c cs ih =>
    intro h
    have hcc : ¬ (c = ',') := fun he => h (he ▸ List.mem_cons_self _ _)
    have hcs : ',' ∉ cs := fun hm => h (List.mem_cons_of_mem _ hm)
    rw [splitComma]
    simp only [hcc, if_false]
    rw [ih hcs]

theorem mem_trimJS {c : Char} {l : List Char} (h : c ∈ trimJS l) : c ∈ l :=
  mem_dropLead (mem_dropTrail h)

theorem normList_no_comma (l : List Char) (h : ',' ∉ l) : normList l = cleanSeg l := by
  rw [normList, cleanSeg, replCommas_no_comma (trimJS l) (fun hm => h (mem_trimJS hm))]

theorem normList_append_comma (a b : List Char) (ha : ',' ∉ a) :
    normList (a ++ ',' :: b) = cleanSeg a ++ ',' :: ' ' :: normList b := by
  rw [normList]
  have h1 : trimJS (a ++ ',' :: b) = dropLead a ++ ',' :: dropTrail b := by
    rw [trimJS, dropLead_append_comma, dropTrail_append_comma]
  rw [h1, replCommas_append_comma (dropLead a) (fun hm => ha (mem_dropLead hm)) (dropTrail b),
    dropLead_dropTrail_comm]
  have hz : headSpace (replCommas (dropTrail (dropLead b))) = false :=
    headSpace_replCommas _ (headSpace_dropTrail _ (headSpace_dropLead b))
  rw [collapseWs_append_sep _ hz _ (dropTrail_idem (dropLead a))]
  rfl

theorem exists_comma_split : ∀ l : List Char, ',' ∈ l →
    ∃ a b, l = a ++ ',' :: b ∧ ',' ∉ a ∧ b.length < l.length := by
  intro l
  induction l with
  | nil => intro h; simp at h
  | cons c cs ih =>
    intro h
    by_cases hc : c = ','
    · subst hc
      exact ⟨[], cs, rfl, by simp, by simp⟩
    · have hcs : ',' ∈ cs := by
        rcases List.mem_cons.mp h with h | h
        · exact absurd h.symm hc
        · exact h
      obtain ⟨a, b, heq, ha, hlt⟩ := ih hcs
      refine ⟨c :: a, b, by rw [heq]; rfl, ?_, ?_⟩
      · intro hm
        rcases List.mem_cons.mp hm with hm | hm
        · exact hc hm.symm
        · exact ha hm
      · simp only [List.length_cons]
        omega

theorem normList_eq_canon : ∀ l : List Char, normList l = canonList l := by
  suffices H : ∀ (n : Nat) (l : List Char), l.length ≤ n → normList l = canonList l by
    exact fun l => H l.length l (Nat.le_refl _)
  intro n
  induction n with
  | zero =>
    intro l hl
    have : l = [] := List.length_eq_zero.mp (Nat.le_zero.mp hl)
    subst this
    rfl
  | succ n ihn =>
    intro l hl
    by_cases hc : ',' ∈ l
    · obtain ⟨a, b, heq, ha, hlt⟩ := exists_comma_split l hc
      subst heq
      rw [normList_append_comma a b ha, canonList, splitComma_append_comma a ha b,
        List.map_cons]
      cases hm : (splitComma b).map cleanSeg with
      | nil => exact absurd (List.map_eq_nil_iff.mp hm) (splitComma_ne_nil b)
      | cons x xs =>
        show cleanSeg a ++ ',' :: ' ' :: normList b = cleanSeg a ++ ',' :: ' ' :: joinSegs (x :: xs)
        have hble : b.length ≤ n := by
          simp only [List.length_append, List.length_cons] at hl hlt
          omega
        rw [ihn b hble, canonList, hm]
    · rw [normList_no_comma l hc, canonList, splitComma_no_comma l hc]
      rfl

theorem dropLead_of_headSpace_false (l : List Char) (h : headSpace l = false) :
    dropLead l = l := by
  cases l with
  | nil => rfl
  | cons c cs =>
    have hc : jsSpace c = false := h
    simp [dropLead, List.dropWhile, hc]

theorem cleanSeg_space_cons (x : List Char) : cleanSeg (' ' :: x) = cleanSeg x := by
  rw [cleanSeg, cleanSeg, trimJS, trimJS]
  have : dropLead (' ' :: x) = dropLead x := by
    simp [dropLead, List.dropWhile, jsSpace_blank]
  rw [this]

theorem cleanSeg_idem (x : List Char) : cleanSeg (cleanSeg x) = cleanSeg x := by
  rw [cleanSeg, cleanSeg]
  have hhs : headSpace (collapseWs (trimJS x)) = false := by
    rw [headSpace_collapseWs, trimJS]
    exact headSpace_dropTrail _ (headSpace_dropLead x)
  have h1 : trimJS (collapseWs (trimJS x)) = collapseWs (trimJS x) := by
    rw [trimJS, dropLead_of_headSpace_false _ hhs]
    exact dropTrail_collapseWs _ (by rw [trimJS]; exact dropTrail_idem (dropLead x))
  rw [h1, collapseWs_idem]

theorem cleanSeg_no_comma (x : List Char) (h : ',' ∉ x) : ',' ∉ cleanSeg x := by
  intro hm
  rcases mem_collapseWs hm with hm | hm
  · exact h (mem_trimJS hm)
  · exact absurd hm (by decide)

theorem splitComma_joinSegs : ∀ (segs : List (List Char)) (s0 : List Char),
    ',' ∉ s0 → (∀ s ∈ segs, ',' ∉ s) →
    splitComma (joinSegs (s0 :: segs)) = s0 :: segs.map (fun s => ' ' :: s) := by
  intro segs
  induction segs with
  | nil =>
    intro s0 hs0 _
    show splitComma s0 = [s0]
    exact splitComma_no_comma s0 hs0
  | cons s1 rest ih =>
    intro s0 hs0 hrest
    show splitComma (s0 ++ ',' :: ' ' :: joinSegs (s1 :: rest)) = _
    rw [splitComma_append_comma s0 hs0, splitComma]
    have hsp : ¬ ((' ' : Char) = ',') := by decide
    simp only [hsp, if_false]
    rw [ih s1 (hrest s1 (List.mem_cons_self _ _))
      (fun s hs => hrest s (List.mem_cons_of_mem _ hs))]
    rfl

theorem canonList_idem (l : List Char) : canonList (canonList l) = canonList l := by
  have hpieces : ∀ s ∈ (splitComma l).map cleanSeg, ',' ∉ s := by
    intro s hs
    obtain ⟨p, hp, rfl⟩ := List.mem_map.mp hs
    exact cleanSeg_no_comma p (splitComma_pieces_no_comma l p hp)
  have hclean : ∀ s ∈ (splitComma l).map cleanSeg, cleanSeg s = s := by
    intro s hs
    obtain ⟨p, hp, rfl⟩ := List.mem_map.mp hs
    exact cleanSeg_idem p
  cases hm : (splitComma l).map cleanSeg with
  | nil => exact absurd (List.map_eq_nil_iff.mp hm) (splitComma_ne_nil l)
  | cons s0 rest =>
    rw [hm] at hpieces hclean
    have hcl : canonList l = joinSegs (s0 :: rest) := by rw [canonList, hm]
    rw [hcl, canonList, splitComma_joinSegs rest s0 (hpieces s0 (List.mem_cons_self _ _))
      (fun s hs => hpieces s (List.mem_cons_of_mem _ hs)), List.map_cons,
      hclean s0 (List.mem_cons_self _ _), List.map_map]
    have hrest : rest.map (cleanSeg ∘ fun s => ' ' :: s) = rest := by
      have h1 : rest.map (cleanSeg ∘ fun s => ' ' :: s) = rest.map id := by
        apply List.map_eq_map_iff.mpr
        intro s hs
        show cleanSeg (' ' :: s) = s
        rw [cleanSeg_space_cons]
        exact hclean s (List.mem_cons_of_mem _ hs)
      rw [h1, List.map_id]
    rw [hrest]

theorem normList_idem (l : List Char) : normList (normList l) = normList l := by
  rw [normList_eq_canon, normList_eq_canon, canonList_idem]

theorem mem_normList {l : List Char} {c : Char} (h : c ∈ normList l) : c ∈ l ∨ c = ' ' := by
  rcases mem_collapseWs h with h | h
  · rcases mem_replCommas h with h | h
    · exact Or.inl (mem_trimJS h)
    · exact Or.inr h
  · exact Or.inr h

/-- C6: `normalizePlace` is idempotent on every string, the two claimed
examples evaluate to `"Seattle, WA"`, and no character is case-changed —
every output character is an input character or the space the rewrite
inserts. -/
theorem normalizePlace_idempotent_matches_claim :
    (∀ s : String, normalizePlace (normalizePlace s) = normalizePlace s) ∧
    normalizePlace "Seattle,  WA" = "Seattle, WA" ∧
    normalizePlace "Seattle, WA" = "Seattle, WA" ∧
    (∀ (s : String) (c : Char), c ∈ (normalizePlace s).data → c ∈ s.data ∨ c = ' ') := by
  refine ⟨?_, by decide, by decide, ?_⟩
  · intro s
    apply String.ext
    show normList (normList s.data) = normList s.data
    exact normList_idem s.data
  · intro s c h
    exact mem_normList h

end Weather
